import Mathlib

/-!
Verification of the Kademlia-DHT node (bencoding codec, Kademlia routing
table, peer store and query handlers) against its specification.

Shallow embedding conventions:
* C++ `char` / `std::string` bytes are modelled as Lean `Char` (compared via
  `Char.toNat`, which agrees with the unsigned-char comparison used by
  `std::string` and `std::map<std::string, ...>`).
* `uint8_t` bytes (node IDs, compact encodings) are modelled as `Nat`.
* `size_t` arithmetic that can wrap (the `pos + length` computation in
  `BencodeParser::parseString`, where `length` is a possibly negative
  `int64_t`) is modelled explicitly modulo `2 ^ 64`.
* Exceptions are modelled as `Except Unit` / `Option`: every `throw` becomes
  an `.error` / `none`; which message is thrown is irrelevant to the claims.
* The recursive-descent parser is given explicit fuel because the C++ parser
  does not terminate on all inputs (a negative string length inside a
  dictionary can move `pos` backwards); `BencodeParser.parse data` runs with
  fuel `data.length + 1`, which is proved sufficient for every encoded value.
-/

set_option linter.unusedVariables false

/-! ## Byte-string primitives -/

/-- Lexicographic strict comparison of byte strings, as done by
`std::string::operator<` (bytes compared as unsigned char). -/
def strLt : List Char → List Char → Bool
  | _, [] => false
  | [], _ :: _ => true
  | a :: s, b :: t =>
    if a.toNat < b.toNat then true
    else if b.toNat < a.toNat then false
    else strLt s t

/-- Lexicographic strict comparison of `uint8_t` sequences, as done by
`std::array<uint8_t, 20>::operator<` (`std::lexicographical_compare`). -/
def bytesLt : List Nat → List Nat → Bool
  | _, [] => false
  | [], _ :: _ => true
  | a :: s, b :: t =>
    if a < b then true
    else if b < a then false
    else bytesLt s t

/-- `int64_t` lower bound. -/
def int64Min : Int := -9223372036854775808

/-- `int64_t` upper bound. -/
def int64Max : Int := 9223372036854775807

/-- Conversion of a signed value to `size_t` (two's complement, mod `2^64`),
used where C++ adds an `int64_t` to a `size_t`. -/
def size_tOf (i : Int) : Nat := (i % (18446744073709551616 : Int)).toNat

/-! ## The bencoded value tree (`BencodedValue` from bencode_parser.hpp)

`BencodedValue` holds `std::variant<int64_t, std::string, BencodedList,
BencodedDict>` with `BencodedList = std::vector<BencodedValue>` and
`BencodedDict = std::map<std::string, BencodedValue>`.  The list and
dictionary spines are separate inductives so that Lean 4.14 accepts the
(mutual) structural recursions.  `BDict` is more general than `std::map`:
it allows arbitrary key order and duplicate keys, which lets the same type
double as the grammar of well-formed bencoded *inputs*; the key-sorted,
duplicate-free sublanguage (predicate `keysSortedD`) is exactly the image
of `std::map`. -/

mutual
inductive BValue where
  | int (n : Int)
  | str (s : List Char)
  | list (xs : BList)
  | dict (ps : BDict)
inductive BList where
  | nil
  | cons (x : BValue) (xs : BList)
inductive BDict where
  | nil
  | cons (key : List Char) (val : BValue) (rest : BDict)
end

/-- `std::vector<BencodedValue>::push_back`. -/
def BList.snoc : BList → BValue → BList
  | .nil, v => .cons v .nil
  | .cons x xs, v => .cons x (xs.snoc v)

def BList.append : BList → BList → BList
  | .nil, m => m
  | .cons x xs, m => .cons x (xs.append m)

def BDict.append : BDict → BDict → BDict
  | .nil, m => m
  | .cons k v t, m => .cons k v (t.append m)

/-- `std::map<std::string, BencodedValue>::operator[]` followed by
assignment (`result[key] = value` in `BencodeParser::parseDict`): insert at
the sorted position, or overwrite the value when the key is present. -/
def BDict.mapInsert : BDict → List Char → BValue → BDict
  | .nil, k, v => .cons k v .nil
  | .cons k0 v0 t, k, v =>
    if strLt k k0 then .cons k v (.cons k0 v0 t)
    else if strLt k0 k then .cons k0 v0 (t.mapInsert k v)
    else .cons k0 v t

/-- `std::map::at` (modelled as `Option` instead of throwing). -/
def BDict.atKey : BDict → List Char → Option BValue
  | .nil, _ => none
  | .cons k v t, key => if k = key then some v else t.atKey key

/-- `BencodedValue::asDict` (throwing access modelled as `Option`). -/
def BValue.asDict : BValue → Option BDict
  | .dict d => some d
  | _ => none

/-- `BencodedValue::asString` (throwing access modelled as `Option`). -/
def BValue.asString : BValue → Option (List Char)
  | .str s => some s
  | _ => none

/-- `BencodedValue::asInt` (throwing access modelled as `Option`). -/
def BValue.asInt : BValue → Option Int
  | .int n => some n
  | _ => none

/-- Keys of a dictionary, in stored order. -/
def BDict.keys : BDict → List (List Char)
  | .nil => []
  | .cons k _ t => k :: t.keys

/-- Number of entries carrying the given key. -/
def BDict.keyCount : BDict → List Char → Nat
  | .nil, _ => 0
  | .cons k _ t, key => (if k = key then 1 else 0) + t.keyCount key

/-- Value of the key's last occurrence in the stored entry order. -/
def BDict.lastVal : BDict → List Char → Option BValue
  | .nil, _ => none
  | .cons k v t, key =>
    match t.lastVal key with
    | some w => some w
    | none => if k = key then some v else none

/-! ## Decimal printing (`std::to_string`) -/

/-- One decimal digit character. -/
def digitChar : Nat → Char
  | 0 => '0' | 1 => '1' | 2 => '2' | 3 => '3' | 4 => '4'
  | 5 => '5' | 6 => '6' | 7 => '7' | 8 => '8' | _ => '9'

/-- Decimal digits of a natural number, most significant first (fuelled so
that it reduces in the kernel; `n + 1` units of fuel always suffice). -/
def natDigitsGo : Nat → Nat → List Char
  | 0, _ => []
  | f + 1, n =>
    if n < 10 then [digitChar n]
    else natDigitsGo f (n / 10) ++ [digitChar (n % 10)]

def natDigits (n : Nat) : List Char := natDigitsGo (n + 1) n

/-- `std::to_string` on `int64_t`. -/
def intToString (n : Int) : List Char :=
  if n < 0 then '-' :: natDigits n.natAbs else natDigits n.toNat

/-! ## `std::stoll` -/

/-- `std::isspace` in the default locale. -/
def isSpace (c : Char) : Bool :=
  c = ' ' || c = '\t' || c = '\n' || c = '\x0b' || c = '\x0c' || c = '\r'

/-- Numeric value of a digit string. -/
def digitsVal (ds : List Char) : Nat :=
  ds.foldl (fun a c => a * 10 + (c.toNat - 48)) 0

/-- `std::stoll(s)` (base 10, no end-pointer): skip leading whitespace, an
optional sign, then digits; trailing characters are ignored.  Throws
(`.error`) when no digits follow (`std::invalid_argument`) or the value
leaves the `int64_t` range (`std::out_of_range`). -/
def stoll (s : List Char) : Except Unit Int :=
  let t := s.dropWhile isSpace
  let neg : Bool := t.headD ' ' = '-'
  let u := if t.headD ' ' = '-' ∨ t.headD ' ' = '+' then t.tail else t
  let ds := u.takeWhile (fun c => c.isDigit)
  if ds.isEmpty then .error ()
  else
    let v : Int := if neg then -(digitsVal ds : Int) else (digitsVal ds : Int)
    if v < int64Min || int64Max < v then .error () else .ok v

/-! ## `BencodeEncoder` (bencode_encoder.cpp)

`encodeDict` copies the dictionary into a `std::map` before emitting; since
`BencodedDict` *is* a `std::map` with the same comparator, that copy is the
identity, so the embedding emits entries in stored order.  On key-sorted
`BDict`s (every value representable in C++) this is exactly
`BencodeEncoder::encode`; on arbitrary `BDict`s it doubles as the generator
of syntactically well-formed bencoded inputs with arbitrary key order. -/

/-- `BencodeEncoder::encodeString`: `std::to_string(value.size()) + ":" + value`. -/
def BencodeEncoder.encodeString (s : List Char) : List Char :=
  natDigits s.length ++ ':' :: s

mutual
def BencodeEncoder.encode : BValue → List Char
  | .int n => 'i' :: intToString n ++ ['e']
  | .str s => BencodeEncoder.encodeString s
  | .list xs => 'l' :: BencodeEncoder.encodeListBody xs ++ ['e']
  | .dict ps => 'd' :: BencodeEncoder.encodeDictBody ps ++ ['e']
def BencodeEncoder.encodeListBody : BList → List Char
  | .nil => []
  | .cons x xs => BencodeEncoder.encode x ++ BencodeEncoder.encodeListBody xs
def BencodeEncoder.encodeDictBody : BDict → List Char
  | .nil => []
  | .cons k v t =>
    BencodeEncoder.encodeString k ++ BencodeEncoder.encode v ++
      BencodeEncoder.encodeDictBody t
end

/-! ## `BencodeParser` (bencode_parser.cpp) -/

/-- Scan for `c`, returning its absolute index (`i` is the index of the
list head). -/
def strFindGo (c : Char) : List Char → Nat → Option Nat
  | [], _ => none
  | x :: xs, i => if x = c then some i else strFindGo c xs (i + 1)

/-- `data.find(c, pos)`: index of the first occurrence of `c` at index
`≥ pos`, or `none` (`std::string::npos`). -/
def strFind (data : List Char) (c : Char) (pos : Nat) : Option Nat :=
  strFindGo c (data.drop pos) pos

/-- `data.substr(pos, count)` (clamped at the end of the string; every call
site has `pos ≤ data.size()`, so the `std::out_of_range` case is dead). -/
def substr (data : List Char) (pos count : Nat) : List Char :=
  (data.drop pos).take count

/-- `BencodeParser::parseInt`: skip `i`, find the terminating `e`, run
`std::stoll` on the characters in between. -/
def BencodeParser.parseInt (data : List Char) (pos : Nat) : Except Unit (Int × Nat) :=
  let pos := pos + 1
  match strFind data 'e' pos with
  | none => .error ()
  | some endPos =>
    let numberStr := substr data pos (endPos - pos)
    match stoll numberStr with
    | .error _ => .error ()
    | .ok n => .ok (n, endPos + 1)

/-- `BencodeParser::parseString`: find the colon, `std::stoll` the length
(an `int64_t`, possibly negative), check `pos + length > data.size()` in
`size_t` arithmetic, take `length` bytes and advance `pos += length` (again
in `size_t` arithmetic — a negative length moves `pos` backwards). -/
def BencodeParser.parseString (data : List Char) (pos : Nat) : Except Unit (List Char × Nat) :=
  match strFind data ':' pos with
  | none => .error ()
  | some colonPos =>
    let lengthStr := substr data pos (colonPos - pos)
    match stoll lengthStr with
    | .error _ => .error ()
    | .ok length =>
      let pos := colonPos + 1
      if data.length < size_tOf (pos + length) then .error ()
      else
        let result := substr data pos (size_tOf length)
        .ok (result, size_tOf (pos + length))

mutual
/-- `BencodeParser::parseValue`: dispatch on `data[pos]` (`i` integer, `l`
list, `d` dictionary, digit byte-string, otherwise error). -/
def BencodeParser.parseValue : Nat → List Char → Nat → Except Unit (BValue × Nat)
  | 0, _, _ => .error ()
  | f + 1, data, pos =>
    if pos < data.length then
      let ch := data.getD pos ' '
      if ch = 'i' then
        match BencodeParser.parseInt data pos with
        | .error _ => .error ()
        | .ok (n, p) => .ok (.int n, p)
      else if ch = 'l' then
        match BencodeParser.parseList f data (pos + 1) .nil with
        | .error _ => .error ()
        | .ok (xs, p) => .ok (.list xs, p)
      else if ch = 'd' then
        match BencodeParser.parseDict f data (pos + 1) .nil with
        | .error _ => .error ()
        | .ok (ps, p) => .ok (.dict ps, p)
      else if ch.isDigit then
        match BencodeParser.parseString data pos with
        | .error _ => .error ()
        | .ok (s, p) => .ok (.str s, p)
      else .error ()
    else .error ()
/-- The `while (pos < data.size() && data[pos] != 'e')` loop of
`BencodeParser::parseList`, with the accumulated `result` vector. -/
def BencodeParser.parseList : Nat → List Char → Nat → BList → Except Unit (BList × Nat)
  | 0, _, _, _ => .error ()
  | f + 1, data, pos, acc =>
    if pos < data.length ∧ data.getD pos ' ' ≠ 'e' then
      match BencodeParser.parseValue f data pos with
      | .error _ => .error ()
      | .ok (v, p) => BencodeParser.parseList f data p (acc.snoc v)
    else if pos < data.length then .ok (acc, pos + 1)
    else .error ()
/-- The key/value loop of `BencodeParser::parseDict`, with the accumulated
`std::map` (`result[key] = value` overwrites earlier occurrences). -/
def BencodeParser.parseDict : Nat → List Char → Nat → BDict → Except Unit (BDict × Nat)
  | 0, _, _, _ => .error ()
  | f + 1, data, pos, acc =>
    if pos < data.length ∧ data.getD pos ' ' ≠ 'e' then
      match BencodeParser.parseString data pos with
      | .error _ => .error ()
      | .ok (key, p1) =>
        match BencodeParser.parseValue f data p1 with
        | .error _ => .error ()
        | .ok (v, p2) => BencodeParser.parseDict f data p2 (acc.mapInsert key v)
    else if pos < data.length then .ok (acc, pos + 1)
    else .error ()
end

/-- `BencodeParser::parse`: parse one value starting at position 0 (trailing
bytes are permitted and discarded).  The fuel `data.length + 1` is proved
sufficient for every encoded value (`cost_le_encLength`); the C++ parser
itself loops forever on certain pathological inputs, which no claim
touches. -/
def BencodeParser.parse (data : List Char) : Except Unit BValue :=
  match BencodeParser.parseValue (data.length + 1) data 0 with
  | .error e => .error e
  | .ok (v, _) => .ok v

/-! ## Well-formedness of values and documents -/

mutual
/-- The value is representable by the C++ data model: integers fit
`int64_t` and byte-string lengths fit `int64_t` (so that the printed length
re-parses).  Key order is *not* constrained. -/
def docOK : BValue → Bool
  | .int n => decide (int64Min ≤ n) && decide (n ≤ int64Max)
  | .str s => decide ((s.length : Int) ≤ int64Max)
  | .list xs => docOKL xs
  | .dict ps => docOKD ps
def docOKL : BList → Bool
  | .nil => true
  | .cons x xs => docOK x && docOKL xs
def docOKD : BDict → Bool
  | .nil => true
  | .cons k v t => decide ((k.length : Int) ≤ int64Max) && docOK v && docOKD t
end

/-- Keys strictly ascending in byte-lexicographic order (the `std::map`
invariant: distinct, sorted keys). -/
def keysSortedD : BDict → Bool
  | .nil => true
  | .cons _ _ .nil => true
  | .cons k _ (.cons k' v' t) => strLt k k' && keysSortedD (.cons k' v' t)

mutual
/-- The value is an actual C++ `BencodedValue`: representable, and every
dictionary has distinct, lexicographically sorted keys. -/
def wf : BValue → Bool
  | .int n => decide (int64Min ≤ n) && decide (n ≤ int64Max)
  | .str s => decide ((s.length : Int) ≤ int64Max)
  | .list xs => wfL xs
  | .dict ps => keysSortedD ps && wfD ps
def wfL : BList → Bool
  | .nil => true
  | .cons x xs => wf x && wfL xs
def wfD : BDict → Bool
  | .nil => true
  | .cons k v t => decide ((k.length : Int) ≤ int64Max) && wf v && wfD t
end

mutual
/-- The value the C++ parser builds back from an encoded document: lists
keep their order, dictionary entry sequences are folded into a `std::map`
left to right (`result[key] = value`), so later duplicates win. -/
def interp : BValue → BValue
  | .int n => .int n
  | .str s => .str s
  | .list xs => .list (interpL xs)
  | .dict ps => .dict (interpD .nil ps)
def interpL : BList → BList
  | .nil => .nil
  | .cons x xs => .cons (interp x) (interpL xs)
def interpD : BDict → BDict → BDict
  | acc, .nil => acc
  | acc, .cons k v t => interpD (acc.mapInsert k (interp v)) t
end

mutual
/-- Fuel needed by `BencodeParser.parseValue` on the encoding of a value
(each recursive call and each loop iteration consumes one unit). -/
def cost : BValue → Nat
  | .int _ => 1
  | .str _ => 1
  | .list xs => 1 + costL xs
  | .dict ps => 1 + costD ps
def costL : BList → Nat
  | .nil => 1
  | .cons x xs => 1 + max (cost x) (costL xs)
def costD : BDict → Nat
  | .nil => 1
  | .cons _ v t => 1 + max (cost v) (costD t)
end

/-! ## DHT data model (dht_bootstrap.hpp / dht_bootstrap.cpp) -/

def NODE_ID_SIZE : Nat := 20

def K : Nat := 8

/-- `std::array<uint8_t, 20>` node identifier; byte 0 is the most
significant byte for comparisons. -/
abbrev NodeID := List Nat

/-- `DHT::Node`.  The C++ field `ip` stores the presentation string produced
by `inet_ntoa`/`inet_ntop`, which is in canonical 1:1 correspondence with
the 4 address bytes; the embedding stores the bytes (network order).
`operator==` is componentwise equality. -/
structure Node where
  id : NodeID
  ip : List Nat
  port : Nat
deriving DecidableEq, Repr

abbrev Bucket := List Node

abbrev RoutingTable := List Bucket

/-- Peer endpoint stored by `handle_announce_peer` (a `DHT::Node` whose `id`
member is left indeterminate and never read; only `ip` and `port` are
observable through `encode_peers`). -/
structure Peer where
  ip : List Nat
  port : Nat
deriving DecidableEq, Repr

/-- `DHTBootstrap::xor_distance`: byte-wise XOR. -/
def xor_distance (a b : NodeID) : NodeID :=
  List.zipWith (fun x y => x ^^^ y) a b

/-- The bit tested by the bucket-index loop:
`distance[bucket_index / 8] & (1 << (bucket_index % 8))` — i.e. bit
`i % 8`, numbered from the *least* significant bit, of byte `i / 8`. -/
def distanceBit (distance : NodeID) (i : Nat) : Bool :=
  Nat.testBit (distance.getD (i / 8) 0) (i % 8)

/-- The loop
`while (bucket_index < n && (distance[i/8] & (1 << (i%8)))) bucket_index++`
(structured on the remaining iteration count `n - i` so it reduces). -/
def bucketIndexGo (distance : NodeID) : Nat → Nat → Nat
  | i, 0 => i
  | i, rem + 1 => if distanceBit distance i then bucketIndexGo distance (i + 1) rem else i

/-- Bucket index chosen by `DHTBootstrap::add_to_routing_table` for a node
at XOR distance `distance`, given `n` current buckets. -/
def bucketIndex (distance : NodeID) (n : Nat) : Nat :=
  bucketIndexGo distance 0 n

/-- The bucket-index rule as worded by the specification claim: scan the
bits of the distance from the most-significant end, *most-significant bit
first* within each byte.  Second definition kept for comparison with
`distanceBit`; it follows the claim's words, not the source. -/
def specDistanceBitMsb (distance : NodeID) (i : Nat) : Bool :=
  Nat.testBit (distance.getD (i / 8) 0) (7 - i % 8)

def specBucketIndexMsbGo (distance : NodeID) : Nat → Nat → Nat
  | i, 0 => i
  | i, rem + 1 => if specDistanceBitMsb distance i then specBucketIndexMsbGo distance (i + 1) rem else i

/-- Bucket index under the claim's most-significant-bit-first reading. -/
def specBucketIndexMsb (distance : NodeID) (n : Nat) : Nat :=
  specBucketIndexMsbGo distance 0 n

/-- `DHTBootstrap::add_to_routing_table`.  The outcome of the liveness
`ping(oldest_node)` in the eviction branch is supplied as the oracle
parameter `pingOk` (the embedding has no network). -/
def add_to_routing_table (my_node_id : NodeID) (rt : RoutingTable) (node : Node)
    (pingOk : Bool) : RoutingTable :=
  let distance := xor_distance my_node_id node.id
  let bucket_index := bucketIndex distance rt.length
  let rt1 := if rt.length ≤ bucket_index then rt ++ [[]] else rt
  let bucket := rt1.getD bucket_index []
  if node ∈ bucket then
    rt1.set bucket_index (bucket.erase node ++ [node])
  else if bucket.length < K then
    rt1.set bucket_index (bucket ++ [node])
  else
    match bucket with
    | [] => rt1
    | oldest :: rest =>
      if pingOk then rt1.set bucket_index (rest ++ [oldest])
      else rt1.set bucket_index (node :: rest)

/-- A sequence of insertions starting from the constructor's table (the
constructor creates one empty bucket: `routing_table_.emplace_back()`). -/
def runInserts (my_node_id : NodeID) (ops : List (Node × Bool)) : RoutingTable :=
  ops.foldl (fun rt op => add_to_routing_table my_node_id rt op.1 op.2) [[]]

/-- The `std::sort` comparator of `find_closest_nodes`:
`xor_distance(a.id, target) < xor_distance(b.id, target)`. -/
def nodeDistLt (target : NodeID) (a b : Node) : Bool :=
  bytesLt (xor_distance a.id target) (xor_distance b.id target)

def sortInsert (lt : Node → Node → Bool) (x : Node) : List Node → List Node
  | [] => [x]
  | y :: t => if lt x y then x :: y :: t else y :: sortInsert lt x t

/-- Insertion sort with the given strict-weak-order comparator.  It produces
one of the permutations `std::sort` is allowed to produce (the order of
comparator-equivalent elements — here: nodes with equal IDs — is
unspecified in C++); every property proved about the result is invariant
under permuting equivalent elements. -/
def sortNodes (lt : Node → Node → Bool) : List Node → List Node
  | [] => []
  | x :: t => sortInsert lt x (sortNodes lt t)

/-- `DHTBootstrap::find_closest_nodes`: gather every bucket in order, sort
by XOR distance to the target, and `resize(k)` when more than `k` nodes. -/
def find_closest_nodes (rt : RoutingTable) (target_id : NodeID) (k : Nat) : List Node :=
  let closest_nodes := rt.flatten
  let closest_nodes := sortNodes (nodeDistLt target_id) closest_nodes
  if k < closest_nodes.length then closest_nodes.take k else closest_nodes

/-! ## Compact encodings and byte/string bridging -/

/-- `std::string(reinterpret_cast<const char*>(bytes), n)`. -/
def bytesToStr (b : List Nat) : List Char := b.map Char.ofNat

/-- Reading the bytes of a `std::string`. -/
def strToBytes (s : List Char) : List Nat := s.map Char.toNat

/-- `DHTBootstrap::string_to_node_id`: throws (`none`) unless the string is
exactly 20 bytes. -/
def DHTBootstrap.string_to_node_id (s : List Char) : Option NodeID :=
  if s.length = NODE_ID_SIZE then some (strToBytes s) else none

/-- `memcpy(id.data(), str.data(), 20)` without a length check (used on
`a.target` / `a.info_hash`): takes the first 20 bytes; when the string is
shorter the C++ reads past the buffer (undefined behaviour), modelled as
zero padding. -/
def bytesFromStr20 (s : List Char) : NodeID :=
  (strToBytes s ++ List.replicate NODE_ID_SIZE 0).take NODE_ID_SIZE

/-- One 26-byte compact node record: 20-byte ID, 4-byte IPv4, 2-byte port,
network byte order (`htons` splits the `uint16_t` port big-endian). -/
def compactNode (n : Node) : List Nat :=
  n.id ++ n.ip ++ [n.port % 65536 / 256, n.port % 256]

/-- `DHTBootstrap::encode_nodes`. -/
def encode_nodes (nodes : List Node) : List Nat :=
  (nodes.map compactNode).flatten

/-- One 6-byte compact peer record: 4-byte IPv4 then 2-byte port. -/
def compactPeer (p : Peer) : List Nat :=
  p.ip ++ [p.port % 65536 / 256, p.port % 256]

/-- `DHTBootstrap::encode_peers`. -/
def encode_peers (peers : List Peer) : List Nat :=
  (peers.map compactPeer).flatten

/-! ## The engine state and inbound query handlers -/

/-- The observable `DHTBootstrap` state (socket handle omitted; the
`peer_store_` is `std::map<std::string, std::vector<Node>>`, modelled as an
association list — no handler iterates it, so its internal key order is
unobservable). -/
structure DHTBootstrap where
  my_node_id : NodeID
  routing_table : RoutingTable
  peer_store : List (List Char × List Peer)
deriving DecidableEq

/-- `peer_store_[infohash].push_back(peer)`: append to the existing entry,
or create the entry with a one-element vector. -/
def storeAppend : List (List Char × List Peer) → List Char → Peer →
    List (List Char × List Peer)
  | [], k, p => [(k, [p])]
  | (k0, l) :: t, k, p =>
    if k0 = k then (k0, l ++ [p]) :: t else (k0, l) :: storeAppend t k p

/-- `peer_store_.find(infohash)`. -/
def storeLookup : List (List Char × List Peer) → List Char → Option (List Peer)
  | [], _ => none
  | (k0, l) :: t, k => if k0 = k then some l else storeLookup t k

/-- Response `{t, y:"r", r:{id: my_id}}` (sent by `handle_ping` and
`handle_announce_peer`; keys listed in the sorted order `std::map`
iterates in when encoding). -/
def idReply (t : List Char) (my_node_id : NodeID) : BValue :=
  .dict (.cons ("r".toList)
           (.dict (.cons ("id".toList) (.str (bytesToStr my_node_id)) .nil))
         (.cons ("t".toList) (.str t)
           (.cons ("y".toList) (.str ("r".toList)) .nil)))

/-- Response `{t, y:"r", r:{id, nodes: compact}}`. -/
def nodesReply (t : List Char) (my_node_id : NodeID) (nodes : List Node) : BValue :=
  .dict (.cons ("r".toList)
           (.dict (.cons ("id".toList) (.str (bytesToStr my_node_id))
             (.cons ("nodes".toList) (.str (bytesToStr (encode_nodes nodes))) .nil)))
         (.cons ("t".toList) (.str t)
           (.cons ("y".toList) (.str ("r".toList)) .nil)))

/-- Response `{t, y:"r", r:{id, values: compact}}`. -/
def valuesReply (t : List Char) (my_node_id : NodeID) (peers : List Peer) : BValue :=
  .dict (.cons ("r".toList)
           (.dict (.cons ("id".toList) (.str (bytesToStr my_node_id))
             (.cons ("values".toList) (.str (bytesToStr (encode_peers peers))) .nil)))
         (.cons ("t".toList) (.str t)
           (.cons ("y".toList) (.str ("r".toList)) .nil)))

/-- `DHTBootstrap::handle_ping`: echo `t`, reply `{t, y:"r", r:{id}}`;
any extraction failure is caught and the datagram dropped (`none`). -/
def DHTBootstrap.handle_ping (st : DHTBootstrap) (request : BValue) : Option BValue :=
  match (request.asDict.bind (fun d => d.atKey ("t".toList))).bind BValue.asString with
  | none => none
  | some t => some (idReply t st.my_node_id)

/-- `DHTBootstrap::handle_find_node`: extract `t` and `a.target`, reply with
the `K` closest nodes in compact form. -/
def DHTBootstrap.handle_find_node (st : DHTBootstrap) (request : BValue) : Option BValue :=
  match (request.asDict.bind (fun d => d.atKey ("t".toList))).bind BValue.asString with
  | none => none
  | some t =>
    match ((request.asDict.bind (fun d => d.atKey ("a".toList))).bind
        BValue.asDict).bind (fun a =>
          (a.atKey ("target".toList)).bind BValue.asString) with
    | none => none
    | some targetStr =>
      some (nodesReply t st.my_node_id
        (find_closest_nodes st.routing_table (bytesFromStr20 targetStr) K))

/-- `DHTBootstrap::handle_get_peers`: extract `t` then `a.info_hash`; if the
peer store has the infohash reply `{t, y:"r", r:{id, values}}`, otherwise
reply `{t, y:"r", r:{id, nodes}}` with the closest nodes to the infohash. -/
def DHTBootstrap.handle_get_peers (st : DHTBootstrap) (request : BValue) : Option BValue :=
  match (request.asDict.bind (fun d => d.atKey ("t".toList))).bind BValue.asString with
  | none => none
  | some t =>
    match ((request.asDict.bind (fun d => d.atKey ("a".toList))).bind
        BValue.asDict).bind (fun a =>
          (a.atKey ("info_hash".toList)).bind BValue.asString) with
    | none => none
    | some infohash =>
      match storeLookup st.peer_store infohash with
      | some peers => some (valuesReply t st.my_node_id peers)
      | none =>
        some (nodesReply t st.my_node_id
          (find_closest_nodes st.routing_table (bytesFromStr20 infohash) K))

/-- `DHTBootstrap::handle_announce_peer`: extract `a.info_hash`, append the
datagram's source endpoint to `peer_store_[infohash]`, and reply
`{t, y:"r", r:{id}}`.  The logging statement calls
`string_to_node_id(infohash)` *after* the store mutation; when the infohash
is not 20 bytes that call throws, the handler's `catch` drops the reply, but
the mutation persists.  Likewise a missing `t` aborts after the mutation. -/
def DHTBootstrap.handle_announce_peer (st : DHTBootstrap) (request : BValue)
    (sender : Peer) : DHTBootstrap × Option BValue :=
  match ((request.asDict.bind (fun d => d.atKey ("a".toList))).bind
      BValue.asDict).bind (fun a =>
        (a.atKey ("info_hash".toList)).bind BValue.asString) with
  | none => (st, none)
  | some infohash =>
    let st1 := { st with peer_store := storeAppend st.peer_store infohash sender }
    if infohash.length ≠ NODE_ID_SIZE then (st1, none)
    else
      match (request.asDict.bind (fun d => d.atKey ("t".toList))).bind BValue.asString with
      | none => (st1, none)
      | some t => (st1, some (idReply t st.my_node_id))

/-- One iteration of the `DHTBootstrap::run` receive loop for a decoded
datagram: parse, read `y`, and for a query dispatch on `q`.  Responses and
errors are logged and discarded; any parse or extraction failure drops the
datagram and leaves the state unchanged. -/
def DHTBootstrap.runStep (st : DHTBootstrap) (datagram : List Char)
    (sender : Peer) : DHTBootstrap × Option BValue :=
  match BencodeParser.parse datagram with
  | .error _ => (st, none)
  | .ok message =>
    match (message.asDict.bind (fun d => d.atKey ("y".toList))).bind BValue.asString with
    | none => (st, none)
    | some y =>
      if y = "q".toList then
        match (message.asDict.bind (fun d => d.atKey ("q".toList))).bind BValue.asString with
        | none => (st, none)
        | some q =>
          if q = "ping".toList then (st, st.handle_ping message)
          else if q = "find_node".toList then (st, st.handle_find_node message)
          else if q = "get_peers".toList then (st, st.handle_get_peers message)
          else if q = "announce_peer".toList then st.handle_announce_peer message sender
          else (st, none)
      else (st, none)

/-- Canonical inbound `announce_peer` message for transaction `t`, sender
node id `senderId` and infohash `infoHash` (keys in sorted order). -/
def announceMsg (t senderId infoHash : List Char) : BValue :=
  .dict (.cons ("a".toList)
           (.dict (.cons ("id".toList) (.str senderId)
             (.cons ("info_hash".toList) (.str infoHash) .nil)))
         (.cons ("q".toList) (.str ("announce_peer".toList))
           (.cons ("t".toList) (.str t)
             (.cons ("y".toList) (.str ("q".toList)) .nil))))

/-- Canonical inbound `get_peers` message. -/
def getPeersMsg (t senderId infoHash : List Char) : BValue :=
  .dict (.cons ("a".toList)
           (.dict (.cons ("id".toList) (.str senderId)
             (.cons ("info_hash".toList) (.str infoHash) .nil)))
         (.cons ("q".toList) (.str ("get_peers".toList))
           (.cons ("t".toList) (.str t)
             (.cons ("y".toList) (.str ("q".toList)) .nil))))

/-! ## Concrete fixtures used by witnesses and counterexamples -/

def zeroId : NodeID := List.replicate 20 0

/-- Node at XOR distance `03 00 … 00` from `zeroId` (bits 0 and 1 of byte 0
set, bit 2 clear, in the code's LSB-first numbering). -/
def nodeX : Node := ⟨3 :: List.replicate 19 0, [1, 2, 3, 4], 6881⟩

/-- Node at XOR distance `01 00 … 00` from `zeroId`. -/
def nodeB1 : Node := ⟨1 :: List.replicate 19 0, [5, 6, 7, 8], 6881⟩

/-- Node at XOR distance `02 00 … 00` from `zeroId` (bit 0 clear: lands in
bucket 0). -/
def nodeY : Node := ⟨2 :: List.replicate 19 0, [9, 9, 9, 9], 42⟩

def emptyEngine : DHTBootstrap := ⟨zeroId, [[]], []⟩

def senderPeer : Peer := ⟨[9, 9, 9, 9], 1234⟩

/-- An `announce_peer` datagram whose `info_hash` is 5 bytes. -/
def badAnnounceDatagram : List Char :=
  "d1:ad9:info_hash5:helloe1:q13:announce_peer1:t2:aa1:y1:qe".toList

/-! ## List helper lemmas -/

theorem getD_append_cons : ∀ (pre : List Char) (c : Char) (rest : List Char) (d : Char),
    (pre ++ c :: rest).getD pre.length d = c
  | [], _, _, _ => rfl
  | p :: ps, c, r, d => getD_append_cons ps c r d

theorem drop_append_len (pre rest : List Char) : (pre ++ rest).drop pre.length = rest :=
  List.drop_left pre rest

theorem take_append_len (pre rest : List Char) : (pre ++ rest).take pre.length = pre :=
  List.take_left pre rest

theorem substr_mid (pre mid post : List Char) :
    substr (pre ++ (mid ++ post)) pre.length mid.length = mid := by
  unfold substr
  rw [drop_append_len, take_append_len]

theorem strFindGo_spec (c : Char) : ∀ (mid : List Char), (∀ x ∈ mid, x ≠ c) →
    ∀ (rest : List Char) (i : Nat), strFindGo c (mid ++ c :: rest) i = some (i + mid.length)
  | [], _, rest, i => by simp [strFindGo]
  | x :: xs, h, rest, i => by
    have hx : x ≠ c := h x (by simp)
    have ih := strFindGo_spec c xs (fun y hy => h y (by simp [hy])) rest (i + 1)
    simp [strFindGo, hx, ih]
    omega

theorem strFind_spec (pre mid : List Char) (c : Char) (rest : List Char)
    (h : ∀ x ∈ mid, x ≠ c) :
    strFind (pre ++ (mid ++ c :: rest)) c pre.length = some (pre.length + mid.length) := by
  unfold strFind
  rw [drop_append_len, strFindGo_spec c mid h rest pre.length]

/-! ## Decimal digit lemmas -/

theorem digitChar_toNat (d : Nat) (h : d < 10) : (digitChar d).toNat = 48 + d := by
  interval_cases d <;> rfl

theorem digitChar_isDigit (d : Nat) (h : d < 10) : (digitChar d).isDigit = true := by
  interval_cases d <;> rfl

theorem natDigitsGo_ne_nil (f n : Nat) : natDigitsGo (f + 1) n ≠ [] := by
  unfold natDigitsGo
  split <;> simp

theorem natDigitsGo_all_digits : ∀ (f : Nat) (n : Nat) (c : Char),
    c ∈ natDigitsGo f n → c.isDigit = true := by
  intro f
  induction f with
  | zero => intro n c hc; simp [natDigitsGo] at hc
  | succ f ih =>
    intro n c hc
    unfold natDigitsGo at hc
    split at hc
    · simp at hc
      subst hc
      exact digitChar_isDigit n (by omega)
    · rcases List.mem_append.mp hc with h | h
      · exact ih _ _ h
      · simp at h
        subst h
        exact digitChar_isDigit (n % 10) (Nat.mod_lt _ (by omega))

theorem digitsVal_append_singleton (l : List Char) (c : Char) :
    digitsVal (l ++ [c]) = digitsVal l * 10 + (c.toNat - 48) := by
  unfold digitsVal
  rw [List.foldl_append]
  rfl

theorem digitsVal_natDigitsGo : ∀ (f : Nat) (n : Nat), n < f →
    digitsVal (natDigitsGo f n) = n := by
  intro f
  induction f with
  | zero => omega
  | succ f ih =>
    intro n hn
    unfold natDigitsGo
    split
    · unfold digitsVal
      simp [digitChar_toNat n (by omega)]
    · rename_i h10
      have hdiv : n / 10 < f := by
        have := Nat.div_lt_self (show 0 < n by omega) (show 1 < 10 by omega)
        omega
      rw [digitsVal_append_singleton, ih _ hdiv,
        digitChar_toNat (n % 10) (Nat.mod_lt _ (by omega))]
      omega

theorem natDigits_ne_nil (n : Nat) : natDigits n ≠ [] := natDigitsGo_ne_nil n n

theorem natDigits_all_digits (n : Nat) (c : Char) (hc : c ∈ natDigits n) :
    c.isDigit = true := natDigitsGo_all_digits (n + 1) n c hc

theorem digitsVal_natDigits (n : Nat) : digitsVal (natDigits n) = n :=
  digitsVal_natDigitsGo (n + 1) n (Nat.lt_succ_self n)

theorem isDigit_toNat (c : Char) (h : c.isDigit = true) : 48 ≤ c.toNat ∧ c.toNat ≤ 57 := by
  simp only [Char.isDigit, Bool.and_eq_true, decide_eq_true_eq] at h
  obtain ⟨h1, h2⟩ := h
  exact ⟨h1, h2⟩

theorem isDigit_ne_chars (c : Char) (h : c.isDigit = true) :
    c ≠ 'i' ∧ c ≠ 'l' ∧ c ≠ 'd' ∧ c ≠ 'e' ∧ c ≠ ':' ∧ c ≠ '-' ∧ c ≠ '+' := by
  have := isDigit_toNat c h
  refine ⟨?_, ?_, ?_, ?_, ?_, ?_, ?_⟩ <;> intro he <;> subst he <;> revert this <;> decide

theorem isDigit_not_isSpace (c : Char) (h : c.isDigit = true) : isSpace c = false := by
  have hb := isDigit_toNat c h
  unfold isSpace
  simp only [Bool.or_eq_false_iff, decide_eq_false_iff_not]
  refine ⟨⟨⟨⟨⟨?_, ?_⟩, ?_⟩, ?_⟩, ?_⟩, ?_⟩ <;> intro he <;> subst he <;> revert hb <;> decide

/-! ## `stoll` on printed numbers -/

theorem takeWhile_all (p : Char → Bool) : ∀ (l : List Char), (∀ c ∈ l, p c = true) →
    l.takeWhile p = l
  | [], _ => rfl
  | c :: cs, h => by
    simp only [List.takeWhile_cons, h c (by simp), if_true]
    rw [takeWhile_all p cs (fun x hx => h x (by simp [hx]))]

theorem stoll_digits (ds : List Char) (hne : ds ≠ []) (hall : ∀ c ∈ ds, c.isDigit = true)
    (hmax : (digitsVal ds : Int) ≤ int64Max) : stoll ds = .ok (digitsVal ds) := by
  obtain ⟨c, cs, rfl⟩ := List.exists_cons_of_ne_nil hne
  have hc : c.isDigit = true := hall c (by simp)
  have hd := isDigit_ne_chars c hc
  have hdrop : (c :: cs).dropWhile isSpace = c :: cs := by
    rw [List.dropWhile_cons, isDigit_not_isSpace c hc]
    simp
  have htake : (c :: cs).takeWhile (fun c => c.isDigit) = c :: cs :=
    takeWhile_all _ _ hall
  have hge : int64Min ≤ (digitsVal (c :: cs) : Int) :=
    le_trans (by unfold int64Min; omega) (Int.natCast_nonneg _)
  unfold stoll
  rw [hdrop]
  simp [hd.2.2.2.2.2.1, hd.2.2.2.2.2.2, htake, not_lt.mpr hge, not_lt.mpr hmax]

theorem stoll_neg_digits (ds : List Char) (hne : ds ≠ [])
    (hall : ∀ c ∈ ds, c.isDigit = true)
    (hmin : int64Min ≤ -(digitsVal ds : Int)) :
    stoll ('-' :: ds) = .ok (-(digitsVal ds : Int)) := by
  obtain ⟨c, cs, rfl⟩ := List.exists_cons_of_ne_nil hne
  have hc : c.isDigit = true := hall c (by simp)
  have htake : (c :: cs).takeWhile (fun c => c.isDigit) = c :: cs :=
    takeWhile_all _ _ hall
  have hle : -(digitsVal (c :: cs) : Int) ≤ int64Max := by
    have := Int.natCast_nonneg (digitsVal (c :: cs))
    unfold int64Max
    omega
  have hdrop : ('-' :: c :: cs).dropWhile isSpace = '-' :: c :: cs := by
    rw [List.dropWhile_cons, if_neg (by decide)]
  unfold stoll
  rw [hdrop]
  simp [htake, not_lt.mpr hmin, not_lt.mpr hle]

theorem stoll_intToString (n : Int) (h1 : int64Min ≤ n) (h2 : n ≤ int64Max) :
    stoll (intToString n) = .ok n := by
  unfold intToString
  by_cases hn : n < 0
  · rw [if_pos hn]
    have habs : (n.natAbs : Int) = -n := by omega
    have := stoll_neg_digits (natDigits n.natAbs) (natDigits_ne_nil _)
      (fun c hc => natDigits_all_digits _ c hc)
      (by rw [digitsVal_natDigits, habs]; omega)
    rw [this, digitsVal_natDigits, habs]
    norm_num
  · rw [if_neg hn]
    have htn : ((n.toNat : Nat) : Int) = n := by omega
    have := stoll_digits (natDigits n.toNat) (natDigits_ne_nil _)
      (fun c hc => natDigits_all_digits _ c hc)
      (by rw [digitsVal_natDigits, htn]; exact h2)
    rw [this, digitsVal_natDigits, htn]

theorem intToString_chars (n : Int) (c : Char) (hc : c ∈ intToString n) :
    c = '-' ∨ c.isDigit = true := by
  unfold intToString at hc
  split at hc
  · rcases List.mem_cons.mp hc with h | h
    · exact Or.inl h
    · exact Or.inr (natDigits_all_digits _ c h)
  · exact Or.inr (natDigits_all_digits _ c hc)

theorem intToString_ne_e (n : Int) (c : Char) (hc : c ∈ intToString n) : c ≠ 'e' := by
  rcases intToString_chars n c hc with h | h
  · subst h; decide
  · exact (isDigit_ne_chars c h).2.2.2.1

/-! ## Shape of encodings -/

theorem encode_cons_tag : ∀ v : BValue, ∃ c r, BencodeEncoder.encode v = c :: r ∧
    (c = 'i' ∨ c = 'l' ∨ c = 'd' ∨ c.isDigit = true) := by
  intro v
  cases v with
  | int n => exact ⟨'i', intToString n ++ ['e'], by simp [BencodeEncoder.encode], Or.inl rfl⟩
  | str s =>
    obtain ⟨c, cs, hds⟩ := List.exists_cons_of_ne_nil (natDigits_ne_nil s.length)
    refine ⟨c, cs ++ ':' :: s, ?_, ?_⟩
    · simp [BencodeEncoder.encode, BencodeEncoder.encodeString, hds]
    · exact Or.inr (Or.inr (Or.inr (natDigits_all_digits _ c (by rw [hds]; simp))))
  | list xs =>
    exact ⟨'l', BencodeEncoder.encodeListBody xs ++ ['e'],
      by simp [BencodeEncoder.encode], Or.inr (Or.inl rfl)⟩
  | dict ps =>
    exact ⟨'d', BencodeEncoder.encodeDictBody ps ++ ['e'],
      by simp [BencodeEncoder.encode], Or.inr (Or.inr (Or.inl rfl))⟩

theorem tag_ne_e (c : Char) (h : c = 'i' ∨ c = 'l' ∨ c = 'd' ∨ c.isDigit = true) :
    c ≠ 'e' := by
  rcases h with h | h | h | h
  · subst h; decide
  · subst h; decide
  · subst h; decide
  · exact (isDigit_ne_chars c h).2.2.2.1

theorem encode_length_pos (v : BValue) : 2 ≤ (BencodeEncoder.encode v).length := by
  cases v with
  | int n => simp [BencodeEncoder.encode]
  | str s =>
    have := List.length_pos.mpr (natDigits_ne_nil s.length)
    simp [BencodeEncoder.encode, BencodeEncoder.encodeString]
    omega
  | list xs => simp [BencodeEncoder.encode]
  | dict ps => simp [BencodeEncoder.encode]

theorem cost_pos : (∀ v : BValue, 1 ≤ cost v) ∧ (∀ l : BList, 1 ≤ costL l) ∧
    (∀ dd : BDict, 1 ≤ costD dd) := by
  refine ⟨fun v => ?_, fun l => ?_, fun dd => ?_⟩
  · cases v <;> simp [cost]
  · cases l <;> simp [costL]
  · cases dd <;> simp [costD]

/-! ## Spine lemmas for `BList` / `BDict` -/

theorem BList.append_nil : ∀ l : BList, l.append .nil = l
  | .nil => rfl
  | .cons x xs => by rw [BList.append, BList.append_nil xs]

theorem BList.snoc_append : ∀ (l : BList) (v : BValue) (m : BList),
    (l.snoc v).append m = l.append (.cons v m)
  | .nil, _, _ => rfl
  | .cons x xs, v, m => by rw [BList.snoc, BList.append, BList.snoc_append xs v m, BList.append]

/-! ## `parseInt` / `parseString` on canonical encodings -/

theorem size_tOf_coe (m : Nat) (h : m < 18446744073709551616) : size_tOf (m : Int) = m := by
  unfold size_tOf
  rw [Int.emod_eq_of_lt (Int.natCast_nonneg m) (by exact_mod_cast h)]
  simp

theorem parseInt_encode (n : Int) (h1 : int64Min ≤ n) (h2 : n ≤ int64Max)
    (pre post : List Char) :
    BencodeParser.parseInt (pre ++ ('i' :: intToString n ++ ['e']) ++ post) pre.length
      = .ok (n, pre.length + (intToString n).length + 2) := by
  have hdata : pre ++ ('i' :: intToString n ++ ['e']) ++ post
      = (pre ++ ['i']) ++ (intToString n ++ 'e' :: post) := by simp
  unfold BencodeParser.parseInt
  have hfind : strFind (pre ++ ('i' :: intToString n ++ ['e']) ++ post) 'e' (pre.length + 1)
      = some (pre.length + 1 + (intToString n).length) := by
    rw [hdata]
    have := strFind_spec (pre ++ ['i']) (intToString n) 'e' post (intToString_ne_e n)
    simpa using this
  have hsub : substr (pre ++ ('i' :: intToString n ++ ['e']) ++ post) (pre.length + 1)
      (pre.length + 1 + (intToString n).length - (pre.length + 1)) = intToString n := by
    rw [hdata]
    have h2 : pre.length + 1 + (intToString n).length - (pre.length + 1)
        = (intToString n).length := by omega
    rw [h2]
    have := substr_mid (pre ++ ['i']) (intToString n) ('e' :: post)
    simpa using this
  simp only [hfind, hsub, stoll_intToString n h1 h2]
  have harith : pre.length + 1 + (intToString n).length + 1
      = pre.length + (intToString n).length + 2 := by omega
  rw [harith]

theorem parseString_encode (s : List Char) (hs : (s.length : Int) ≤ int64Max)
    (pre post : List Char)
    (hlen : (pre ++ BencodeEncoder.encodeString s ++ post).length < 18446744073709551616) :
    BencodeParser.parseString (pre ++ BencodeEncoder.encodeString s ++ post) pre.length
      = .ok (s, pre.length + (BencodeEncoder.encodeString s).length) := by
  have hdigits : ∀ x ∈ natDigits s.length, x ≠ ':' :=
    fun x hx => (isDigit_ne_chars x (natDigits_all_digits _ x hx)).2.2.2.2.1
  have hdata : pre ++ BencodeEncoder.encodeString s ++ post
      = pre ++ (natDigits s.length ++ ':' :: (s ++ post)) := by
    simp [BencodeEncoder.encodeString]
  have hfind : strFind (pre ++ BencodeEncoder.encodeString s ++ post) ':' pre.length
      = some (pre.length + (natDigits s.length).length) := by
    rw [hdata]
    exact strFind_spec pre (natDigits s.length) ':' (s ++ post) hdigits
  have hsub1 : substr (pre ++ BencodeEncoder.encodeString s ++ post) pre.length
      (pre.length + (natDigits s.length).length - pre.length) = natDigits s.length := by
    rw [hdata]
    have h2 : pre.length + (natDigits s.length).length - pre.length
        = (natDigits s.length).length := by omega
    rw [h2]
    have := substr_mid pre (natDigits s.length) (':' :: (s ++ post))
    simpa using this
  have hstoll : stoll (natDigits s.length) = .ok (s.length : Int) := by
    have := stoll_digits (natDigits s.length) (natDigits_ne_nil _)
      (fun c hc => natDigits_all_digits _ c hc)
      (by rw [digitsVal_natDigits]; exact hs)
    rw [this, digitsVal_natDigits]
  have hdl : (pre ++ BencodeEncoder.encodeString s ++ post).length
      = pre.length + (natDigits s.length).length + 1 + s.length + post.length := by
    simp [BencodeEncoder.encodeString]
    omega
  have hcast : ((pre.length + (natDigits s.length).length + 1 : Nat) : Int) + (s.length : Int)
      = ((pre.length + (natDigits s.length).length + 1 + s.length : Nat) : Int) := by
    push_cast
    ring
  have hsz : size_tOf ((pre.length + (natDigits s.length).length + 1 : Nat) + (s.length : Int))
      = pre.length + (natDigits s.length).length + 1 + s.length := by
    rw [hcast, size_tOf_coe _ (by omega)]
  have hszlen : size_tOf (s.length : Int) = s.length := by
    rw [size_tOf_coe _ (by omega)]
  have hsub2 : substr (pre ++ BencodeEncoder.encodeString s ++ post)
      (pre.length + (natDigits s.length).length + 1) s.length = s := by
    have hd2 : pre ++ BencodeEncoder.encodeString s ++ post
        = (pre ++ natDigits s.length ++ [':']) ++ (s ++ post) := by
      simp [BencodeEncoder.encodeString]
    have hlen2 : (pre ++ natDigits s.length ++ [':']).length
        = pre.length + (natDigits s.length).length + 1 := by
      simp
      omega
    rw [hd2, ← hlen2]
    exact substr_mid (pre ++ natDigits s.length ++ [':']) s post
  unfold BencodeParser.parseString
  simp only [hfind, hsub1, hstoll, hsz, hszlen]
  rw [if_neg (by omega), hsub2]
  have harith : pre.length + (natDigits s.length).length + 1 + s.length
      = pre.length + (BencodeEncoder.encodeString s).length := by
    simp [BencodeEncoder.encodeString]
    omega
  rw [harith]

theorem encodeString_length (s : List Char) :
    (BencodeEncoder.encodeString s).length = (natDigits s.length).length + 1 + s.length := by
  simp [BencodeEncoder.encodeString]
  omega

theorem encodeString_length_ge (s : List Char) : 2 ≤ (BencodeEncoder.encodeString s).length := by
  have := List.length_pos.mpr (natDigits_ne_nil s.length)
  rw [encodeString_length]
  omega

theorem cost_le_enc : ∀ f : Nat,
    (∀ v : BValue, cost v ≤ f → cost v ≤ (BencodeEncoder.encode v).length) ∧
    (∀ l : BList, costL l ≤ f → costL l ≤ (BencodeEncoder.encodeListBody l).length + 1) ∧
    (∀ dd : BDict, costD dd ≤ f → costD dd ≤ (BencodeEncoder.encodeDictBody dd).length + 1) := by
  intro f
  induction f with
  | zero =>
    refine ⟨fun v hv => ?_, fun l hl => ?_, fun dd hd => ?_⟩
    · have := cost_pos.1 v; omega
    · have := cost_pos.2.1 l; omega
    · have := cost_pos.2.2 dd; omega
  | succ f ih =>
    obtain ⟨ihV, ihL, ihD⟩ := ih
    refine ⟨fun v hv => ?_, fun l hl => ?_, fun dd hd => ?_⟩
    · cases v with
      | int n => simp [cost, BencodeEncoder.encode]
      | str s =>
        have := encodeString_length_ge s
        simp only [cost, BencodeEncoder.encode]
        omega
      | list xs =>
        have h1 : costL xs ≤ f := by simp [cost] at hv; omega
        have := ihL xs h1
        simp only [cost, BencodeEncoder.encode, List.length_cons, List.length_append]
        omega
      | dict ps =>
        have h1 : costD ps ≤ f := by simp [cost] at hv; omega
        have := ihD ps h1
        simp only [cost, BencodeEncoder.encode, List.length_cons, List.length_append]
        omega
    · cases l with
      | nil => simp [costL]
      | cons x xs =>
        have hx : cost x ≤ f := by
          simp only [costL] at hl
          have := Nat.le_max_left (cost x) (costL xs)
          omega
        have hxs : costL xs ≤ f := by
          simp only [costL] at hl
          have := Nat.le_max_right (cost x) (costL xs)
          omega
        have e1 := ihV x hx
        have e2 := ihL xs hxs
        have e3 := encode_length_pos x
        simp only [costL, BencodeEncoder.encodeListBody, List.length_append]
        omega
    · cases dd with
      | nil => simp [costD]
      | cons k v t =>
        have hx : cost v ≤ f := by
          simp only [costD] at hd
          have := Nat.le_max_left (cost v) (costD t)
          omega
        have ht : costD t ≤ f := by
          simp only [costD] at hd
          have := Nat.le_max_right (cost v) (costD t)
          omega
        have e1 := ihV v hx
        have e2 := ihD t ht
        have e3 := encode_length_pos v
        have e4 := encodeString_length_ge k
        simp only [costD, BencodeEncoder.encodeDictBody, List.length_append]
        omega

/-! ## The central lemma: parsing a canonical encoding -/

theorem parse_encode_main : ∀ f : Nat,
    (∀ v : BValue, docOK v = true → cost v ≤ f → ∀ pre post : List Char,
      (pre ++ BencodeEncoder.encode v ++ post).length < 18446744073709551616 →
      BencodeParser.parseValue f (pre ++ BencodeEncoder.encode v ++ post) pre.length
        = .ok (interp v, pre.length + (BencodeEncoder.encode v).length)) ∧
    (∀ l : BList, docOKL l = true → costL l ≤ f → ∀ (acc : BList) (pre post : List Char),
      (pre ++ BencodeEncoder.encodeListBody l ++ 'e' :: post).length < 18446744073709551616 →
      BencodeParser.parseList f (pre ++ BencodeEncoder.encodeListBody l ++ 'e' :: post)
          pre.length acc
        = .ok (acc.append (interpL l),
            pre.length + (BencodeEncoder.encodeListBody l).length + 1)) ∧
    (∀ dd : BDict, docOKD dd = true → costD dd ≤ f → ∀ (acc : BDict) (pre post : List Char),
      (pre ++ BencodeEncoder.encodeDictBody dd ++ 'e' :: post).length < 18446744073709551616 →
      BencodeParser.parseDict f (pre ++ BencodeEncoder.encodeDictBody dd ++ 'e' :: post)
          pre.length acc
        = .ok (interpD acc dd,
            pre.length + (BencodeEncoder.encodeDictBody dd).length + 1)) := by
  intro f
  induction f with
  | zero =>
    refine ⟨fun v _ hv => ?_, fun l _ hl => ?_, fun dd _ hd => ?_⟩ <;> intros
    · have := cost_pos.1 v; omega
    · have := cost_pos.2.1 l; omega
    · have := cost_pos.2.2 dd; omega
  | succ f ih =>
    obtain ⟨ihV, ihL, ihD⟩ := ih
    refine ⟨fun v hok hcost pre post hlen => ?_,
      fun l hok hcost acc pre post hlen => ?_,
      fun dd hok hcost acc pre post hlen => ?_⟩
    · -- parseValue on an encoded value
      cases v with
      | int n =>
        simp only [docOK, Bool.and_eq_true, decide_eq_true_eq] at hok
        have henc : BencodeEncoder.encode (.int n) = 'i' :: intToString n ++ ['e'] := by
          simp [BencodeEncoder.encode]
        rw [henc]
        have hget : (pre ++ ('i' :: intToString n ++ ['e']) ++ post).getD pre.length ' ' = 'i' := by
          rw [show pre ++ ('i' :: intToString n ++ ['e']) ++ post
              = pre ++ 'i' :: (intToString n ++ ['e'] ++ post) from by simp]
          exact getD_append_cons pre 'i' _ ' '
        have hpos : pre.length < (pre ++ ('i' :: intToString n ++ ['e']) ++ post).length := by
          simp
        simp only [BencodeParser.parseValue, if_pos hpos, hget, if_pos rfl,
          parseInt_encode n hok.1 hok.2 pre post]
        have h2 : pre.length + (intToString n).length + 2
            = pre.length + ('i' :: intToString n ++ ['e']).length := by
          simp only [List.length_cons, List.length_append, List.length_nil]
          omega
        rw [h2]
        rfl
      | str s =>
        simp only [docOK, decide_eq_true_eq] at hok
        have henc : BencodeEncoder.encode (.str s) = BencodeEncoder.encodeString s := by
          simp [BencodeEncoder.encode]
        rw [henc] at hlen ⊢
        obtain ⟨c, r, hcr⟩ := List.exists_cons_of_ne_nil (natDigits_ne_nil s.length)
        have hcs : BencodeEncoder.encodeString s = c :: (r ++ ':' :: s) := by
          rw [BencodeEncoder.encodeString, hcr]
          simp
        have hcdig : c.isDigit = true :=
          natDigits_all_digits s.length c (by rw [hcr]; simp)
        have hd := isDigit_ne_chars c hcdig
        have hget : (pre ++ BencodeEncoder.encodeString s ++ post).getD pre.length ' ' = c := by
          rw [show pre ++ BencodeEncoder.encodeString s ++ post
              = pre ++ c :: (r ++ ':' :: s ++ post) from by rw [hcs]; simp]
          exact getD_append_cons pre c _ ' '
        have hpos : pre.length < (pre ++ BencodeEncoder.encodeString s ++ post).length := by
          rw [hcs]
          simp
        simp only [BencodeParser.parseValue, if_pos hpos, hget]
        rw [if_neg hd.1, if_neg hd.2.1, if_neg hd.2.2.1, if_pos hcdig,
          parseString_encode s hok pre post hlen]
        rfl
      | list xs =>
        have henc : BencodeEncoder.encode (.list xs)
            = 'l' :: BencodeEncoder.encodeListBody xs ++ ['e'] := by
          simp [BencodeEncoder.encode]
        rw [henc] at hlen ⊢
        have hsplit : pre ++ ('l' :: BencodeEncoder.encodeListBody xs ++ ['e']) ++ post
            = (pre ++ ['l']) ++ BencodeEncoder.encodeListBody xs ++ 'e' :: post := by
          simp
        have hget : (pre ++ ('l' :: BencodeEncoder.encodeListBody xs ++ ['e'])
            ++ post).getD pre.length ' ' = 'l' := by
          rw [show pre ++ ('l' :: BencodeEncoder.encodeListBody xs ++ ['e']) ++ post
              = pre ++ 'l' :: (BencodeEncoder.encodeListBody xs ++ ['e'] ++ post) from by simp]
          exact getD_append_cons pre 'l' _ ' '
        have hpos : pre.length < (pre ++ ('l' :: BencodeEncoder.encodeListBody xs ++ ['e'])
            ++ post).length := by
          simp
        have hload := ihL xs (by simpa [docOK] using hok)
          (by simp only [cost] at hcost; omega)
          .nil (pre ++ ['l']) post
          (by rw [← hsplit]; simpa using hlen)
        rw [hsplit] at hget hpos ⊢
        simp only [BencodeParser.parseValue, if_pos hpos, hget]
        rw [show pre.length + 1 = (pre ++ ['l']).length from by simp, hload]
        have h1 : BList.nil.append (interpL xs) = interpL xs := rfl
        have h2 : (pre ++ ['l']).length + (BencodeEncoder.encodeListBody xs).length + 1
            = pre.length + ('l' :: BencodeEncoder.encodeListBody xs ++ ['e']).length := by
          simp only [List.length_append, List.length_cons, List.length_nil]
          omega
        rw [h1, h2]
        rfl
      | dict ps =>
        have henc : BencodeEncoder.encode (.dict ps)
            = 'd' :: BencodeEncoder.encodeDictBody ps ++ ['e'] := by
          simp [BencodeEncoder.encode]
        rw [henc] at hlen ⊢
        have hsplit : pre ++ ('d' :: BencodeEncoder.encodeDictBody ps ++ ['e']) ++ post
            = (pre ++ ['d']) ++ BencodeEncoder.encodeDictBody ps ++ 'e' :: post := by
          simp
        have hget : (pre ++ ('d' :: BencodeEncoder.encodeDictBody ps ++ ['e'])
            ++ post).getD pre.length ' ' = 'd' := by
          rw [show pre ++ ('d' :: BencodeEncoder.encodeDictBody ps ++ ['e']) ++ post
              = pre ++ 'd' :: (BencodeEncoder.encodeDictBody ps ++ ['e'] ++ post) from by simp]
          exact getD_append_cons pre 'd' _ ' '
        have hpos : pre.length < (pre ++ ('d' :: BencodeEncoder.encodeDictBody ps ++ ['e'])
            ++ post).length := by
          simp
        have hload := ihD ps (by simpa [docOK] using hok)
          (by simp only [cost] at hcost; omega)
          .nil (pre ++ ['d']) post
          (by rw [← hsplit]; simpa using hlen)
        rw [hsplit] at hget hpos ⊢
        simp only [BencodeParser.parseValue, if_pos hpos, hget]
        rw [if_neg (by decide)]
        rw [show pre.length + 1 = (pre ++ ['d']).length from by simp, hload]
        have h2 : (pre ++ ['d']).length + (BencodeEncoder.encodeDictBody ps).length + 1
            = pre.length + ('d' :: BencodeEncoder.encodeDictBody ps ++ ['e']).length := by
          simp only [List.length_append, List.length_cons, List.length_nil]
          omega
        rw [h2]
        rfl
    · -- parseList loop on an encoded item sequence
      cases l with
      | nil =>
        have hget : (pre ++ BencodeEncoder.encodeListBody BList.nil
            ++ 'e' :: post).getD pre.length ' ' = 'e' := by
          rw [show pre ++ BencodeEncoder.encodeListBody BList.nil ++ 'e' :: post
              = pre ++ 'e' :: post from by simp [BencodeEncoder.encodeListBody]]
          exact getD_append_cons pre 'e' post ' '
        have hpos : pre.length < (pre ++ BencodeEncoder.encodeListBody BList.nil
            ++ 'e' :: post).length := by
          simp [BencodeEncoder.encodeListBody]
        simp only [BencodeParser.parseList]
        rw [if_neg (by rw [hget]; simp), if_pos hpos]
        have h1 : acc.append (interpL BList.nil) = acc := BList.append_nil acc
        rw [h1]
        simp [BencodeEncoder.encodeListBody]
      | cons x xs =>
        have hbody : BencodeEncoder.encodeListBody (BList.cons x xs)
            = BencodeEncoder.encode x ++ BencodeEncoder.encodeListBody xs := rfl
        rw [hbody] at hlen ⊢
        obtain ⟨c, r, hcr, htag⟩ := encode_cons_tag x
        have hne : c ≠ 'e' := tag_ne_e c htag
        have hget : (pre ++ (BencodeEncoder.encode x ++ BencodeEncoder.encodeListBody xs)
            ++ 'e' :: post).getD pre.length ' ' = c := by
          rw [show pre ++ (BencodeEncoder.encode x ++ BencodeEncoder.encodeListBody xs)
                ++ 'e' :: post
              = pre ++ c :: (r ++ (BencodeEncoder.encodeListBody xs ++ 'e' :: post))
              from by rw [hcr]; simp]
          exact getD_append_cons pre c _ ' '
        have hpos : pre.length < (pre ++ (BencodeEncoder.encode x
            ++ BencodeEncoder.encodeListBody xs) ++ 'e' :: post).length := by
          rw [hcr]
          simp
        have hokx : docOK x = true := by
          simp only [docOKL, Bool.and_eq_true] at hok
          exact hok.1
        have hokxs : docOKL xs = true := by
          simp only [docOKL, Bool.and_eq_true] at hok
          exact hok.2
        have hcx : cost x ≤ f := by
          simp only [costL] at hcost
          have := Nat.le_max_left (cost x) (costL xs)
          omega
        have hcxs : costL xs ≤ f := by
          simp only [costL] at hcost
          have := Nat.le_max_right (cost x) (costL xs)
          omega
        have hsplitv : pre ++ (BencodeEncoder.encode x ++ BencodeEncoder.encodeListBody xs)
            ++ 'e' :: post
            = pre ++ BencodeEncoder.encode x ++ (BencodeEncoder.encodeListBody xs
              ++ 'e' :: post) := by
          simp
        have hval := ihV x hokx hcx pre (BencodeEncoder.encodeListBody xs ++ 'e' :: post)
          (by rw [← hsplitv]
              simp only [List.length_append, List.length_cons] at hlen ⊢
              omega)
        have hrest := ihL xs hokxs hcxs (acc.snoc (interp x))
          (pre ++ BencodeEncoder.encode x) post
          (by rw [show (pre ++ BencodeEncoder.encode x) ++ BencodeEncoder.encodeListBody xs
                ++ 'e' :: post = pre ++ (BencodeEncoder.encode x
                ++ BencodeEncoder.encodeListBody xs) ++ 'e' :: post from by simp]
              simp only [List.length_append, List.length_cons] at hlen ⊢
              omega)
        have hrest2 : BencodeParser.parseList f (pre ++ BencodeEncoder.encode x
              ++ (BencodeEncoder.encodeListBody xs ++ 'e' :: post))
              (pre.length + (BencodeEncoder.encode x).length) (acc.snoc (interp x))
            = .ok ((acc.snoc (interp x)).append (interpL xs),
                (pre ++ BencodeEncoder.encode x).length
                  + (BencodeEncoder.encodeListBody xs).length + 1) := by
          rw [show pre ++ BencodeEncoder.encode x ++ (BencodeEncoder.encodeListBody xs
                ++ 'e' :: post) = (pre ++ BencodeEncoder.encode x)
                ++ BencodeEncoder.encodeListBody xs ++ 'e' :: post from by simp,
              show pre.length + (BencodeEncoder.encode x).length
                = (pre ++ BencodeEncoder.encode x).length from by simp]
          exact hrest
        simp only [BencodeParser.parseList]
        rw [if_pos ⟨hpos, by rw [hget]; exact hne⟩, hsplitv]
        simp only [hval, hrest2]
        rw [BList.snoc_append]
        have harith : (pre ++ BencodeEncoder.encode x).length
              + (BencodeEncoder.encodeListBody xs).length + 1
            = pre.length + (BencodeEncoder.encode x
              ++ BencodeEncoder.encodeListBody xs).length + 1 := by
          simp only [List.length_append]
          omega
        rw [harith]
        rfl
    · -- parseDict loop on an encoded entry sequence
      cases dd with
      | nil =>
        have hget : (pre ++ BencodeEncoder.encodeDictBody BDict.nil
            ++ 'e' :: post).getD pre.length ' ' = 'e' := by
          rw [show pre ++ BencodeEncoder.encodeDictBody BDict.nil ++ 'e' :: post
              = pre ++ 'e' :: post from by simp [BencodeEncoder.encodeDictBody]]
          exact getD_append_cons pre 'e' post ' '
        have hpos : pre.length < (pre ++ BencodeEncoder.encodeDictBody BDict.nil
            ++ 'e' :: post).length := by
          simp [BencodeEncoder.encodeDictBody]
        simp only [BencodeParser.parseDict]
        rw [if_neg (by rw [hget]; simp), if_pos hpos]
        simp [BencodeEncoder.encodeDictBody, interpD]
      | cons k v t =>
        have hbody : BencodeEncoder.encodeDictBody (BDict.cons k v t)
            = BencodeEncoder.encodeString k ++ BencodeEncoder.encode v
              ++ BencodeEncoder.encodeDictBody t := rfl
        rw [hbody] at hlen ⊢
        obtain ⟨c, r, hcr⟩ := List.exists_cons_of_ne_nil (natDigits_ne_nil k.length)
        have hcdig : c.isDigit = true :=
          natDigits_all_digits k.length c (by rw [hcr]; simp)
        have hne : c ≠ 'e' := (isDigit_ne_chars c hcdig).2.2.2.1
        have hcs : BencodeEncoder.encodeString k = c :: (r ++ ':' :: k) := by
          rw [BencodeEncoder.encodeString, hcr]
          simp
        have hok3 : decide ((k.length : Int) ≤ int64Max) && docOK v && docOKD t = true := by
          simpa [docOKD] using hok
        simp only [Bool.and_eq_true, decide_eq_true_eq] at hok3
        have hcv : cost v ≤ f := by
          simp only [costD] at hcost
          have := Nat.le_max_left (cost v) (costD t)
          omega
        have hct : costD t ≤ f := by
          simp only [costD] at hcost
          have := Nat.le_max_right (cost v) (costD t)
          omega
        have hget : (pre ++ (BencodeEncoder.encodeString k ++ BencodeEncoder.encode v
            ++ BencodeEncoder.encodeDictBody t) ++ 'e' :: post).getD pre.length ' ' = c := by
          rw [show pre ++ (BencodeEncoder.encodeString k ++ BencodeEncoder.encode v
                ++ BencodeEncoder.encodeDictBody t) ++ 'e' :: post
              = pre ++ c :: (r ++ ':' :: k ++ (BencodeEncoder.encode v
                ++ BencodeEncoder.encodeDictBody t ++ 'e' :: post))
              from by rw [hcs]; simp]
          exact getD_append_cons pre c _ ' '
        have hpos : pre.length < (pre ++ (BencodeEncoder.encodeString k
            ++ BencodeEncoder.encode v ++ BencodeEncoder.encodeDictBody t)
            ++ 'e' :: post).length := by
          rw [hcs]
          simp
        have hsplitk : pre ++ (BencodeEncoder.encodeString k ++ BencodeEncoder.encode v
              ++ BencodeEncoder.encodeDictBody t) ++ 'e' :: post
            = pre ++ BencodeEncoder.encodeString k ++ (BencodeEncoder.encode v
              ++ (BencodeEncoder.encodeDictBody t ++ 'e' :: post)) := by
          simp
        have hkey := parseString_encode k hok3.1.1 pre
          (BencodeEncoder.encode v ++ (BencodeEncoder.encodeDictBody t ++ 'e' :: post))
          (by rw [← hsplitk]
              simp only [List.length_append, List.length_cons] at hlen ⊢
              omega)
        have hval := ihV v hok3.1.2 hcv (pre ++ BencodeEncoder.encodeString k)
          (BencodeEncoder.encodeDictBody t ++ 'e' :: post)
          (by rw [show (pre ++ BencodeEncoder.encodeString k) ++ BencodeEncoder.encode v
                ++ (BencodeEncoder.encodeDictBody t ++ 'e' :: post)
                = pre ++ (BencodeEncoder.encodeString k ++ BencodeEncoder.encode v
                ++ BencodeEncoder.encodeDictBody t) ++ 'e' :: post from by simp]
              simp only [List.length_append, List.length_cons] at hlen ⊢
              omega)
        have hval2 : BencodeParser.parseValue f (pre ++ BencodeEncoder.encodeString k
              ++ (BencodeEncoder.encode v ++ (BencodeEncoder.encodeDictBody t
              ++ 'e' :: post))) (pre.length + (BencodeEncoder.encodeString k).length)
            = .ok (interp v, (pre ++ BencodeEncoder.encodeString k).length
                + (BencodeEncoder.encode v).length) := by
          rw [show pre ++ BencodeEncoder.encodeString k ++ (BencodeEncoder.encode v
                ++ (BencodeEncoder.encodeDictBody t ++ 'e' :: post))
                = (pre ++ BencodeEncoder.encodeString k) ++ BencodeEncoder.encode v
                ++ (BencodeEncoder.encodeDictBody t ++ 'e' :: post) from by simp,
              show pre.length + (BencodeEncoder.encodeString k).length
                = (pre ++ BencodeEncoder.encodeString k).length from by simp]
          exact hval
        have hrest := ihD t hok3.2 hct (acc.mapInsert k (interp v))
          (pre ++ BencodeEncoder.encodeString k ++ BencodeEncoder.encode v) post
          (by rw [show (pre ++ BencodeEncoder.encodeString k ++ BencodeEncoder.encode v)
                ++ BencodeEncoder.encodeDictBody t ++ 'e' :: post
                = pre ++ (BencodeEncoder.encodeString k ++ BencodeEncoder.encode v
                ++ BencodeEncoder.encodeDictBody t) ++ 'e' :: post from by simp]
              simp only [List.length_append, List.length_cons] at hlen ⊢
              omega)
        have hrest2 : BencodeParser.parseDict f (pre ++ BencodeEncoder.encodeString k
              ++ (BencodeEncoder.encode v ++ (BencodeEncoder.encodeDictBody t
              ++ 'e' :: post)))
              ((pre ++ BencodeEncoder.encodeString k).length
                + (BencodeEncoder.encode v).length)
              (acc.mapInsert k (interp v))
            = .ok (interpD (acc.mapInsert k (interp v)) t,
                (pre ++ BencodeEncoder.encodeString k
                  ++ BencodeEncoder.encode v).length
                  + (BencodeEncoder.encodeDictBody t).length + 1) := by
          rw [show pre ++ BencodeEncoder.encodeString k ++ (BencodeEncoder.encode v
                ++ (BencodeEncoder.encodeDictBody t ++ 'e' :: post))
                = (pre ++ BencodeEncoder.encodeString k ++ BencodeEncoder.encode v)
                ++ BencodeEncoder.encodeDictBody t ++ 'e' :: post from by simp,
              show (pre ++ BencodeEncoder.encodeString k).length
                + (BencodeEncoder.encode v).length
                = (pre ++ BencodeEncoder.encodeString k
                  ++ BencodeEncoder.encode v).length from by
                simp only [List.length_append]]
          exact hrest
        simp only [BencodeParser.parseDict]
        rw [if_pos ⟨hpos, by rw [hget]; exact hne⟩, hsplitk]
        simp only [hkey, hval2, hrest2]
        have harith : (pre ++ BencodeEncoder.encodeString k
              ++ BencodeEncoder.encode v).length
              + (BencodeEncoder.encodeDictBody t).length + 1
            = pre.length + (BencodeEncoder.encodeString k ++ BencodeEncoder.encode v
              ++ BencodeEncoder.encodeDictBody t).length + 1 := by
          simp only [List.length_append]
          omega
        rw [harith]
        rfl

/-! ## Order properties of the lexicographic comparisons -/

theorem strLt_irrefl : ∀ a : List Char, strLt a a = false
  | [] => rfl
  | c :: s => by
    simp only [strLt, lt_irrefl, if_false]
    exact strLt_irrefl s

theorem strLt_asymm : ∀ a b : List Char, strLt a b = true → strLt b a = false
  | a, [] => by intro h; simp [strLt] at h
  | [], b :: t => by intro _; rfl
  | a :: s, b :: t => by
    intro h
    simp only [strLt] at h ⊢
    by_cases hab : a.toNat < b.toNat
    · rw [if_neg (by omega), if_pos hab]
    · by_cases hba : b.toNat < a.toNat
      · rw [if_neg hab, if_pos hba] at h
        exact absurd h (by simp)
      · rw [if_neg hab, if_neg hba] at h
        rw [if_neg hba, if_neg hab]
        exact strLt_asymm s t h

theorem strLt_conn : ∀ a b : List Char, strLt a b = false → strLt b a = false → a = b
  | [], [] => fun _ _ => rfl
  | [], b :: t => by intro h _; simp [strLt] at h
  | a :: s, [] => by intro _ h; simp [strLt] at h
  | a :: s, b :: t => by
    intro h1 h2
    simp only [strLt] at h1 h2
    by_cases hab : a.toNat < b.toNat
    · rw [if_pos hab] at h1
      exact absurd h1 (by simp)
    · by_cases hba : b.toNat < a.toNat
      · rw [if_pos hba] at h2
        exact absurd h2 (by simp)
      · rw [if_neg hab, if_neg hba] at h1
        rw [if_neg hba, if_neg hab] at h2
        have hn : a.toNat = b.toNat := by omega
        have hc : a = b := Char.ext (UInt32.ext_iff.mpr hn)
        subst hc
        rw [strLt_conn s t h1 h2]

theorem strLt_trans : ∀ a b c : List Char, strLt a b = true → strLt b c = true →
    strLt a c = true
  | a, b, [] => by intro _ h2; simp [strLt] at h2
  | a, [], c :: u => by intro h1 _; simp [strLt] at h1
  | [], b :: t, c :: u => by intro _ _; rfl
  | a :: s, b :: t, c :: u => by
    intro h1 h2
    simp only [strLt] at h1 h2 ⊢
    by_cases hab : a.toNat < b.toNat <;> by_cases hbc : b.toNat < c.toNat
    · rw [if_pos (by omega)]
    · by_cases hcb : c.toNat < b.toNat
      · rw [if_neg hbc, if_pos hcb] at h2
        exact absurd h2 (by simp)
      · rw [if_pos (by omega)]
    · by_cases hba : b.toNat < a.toNat
      · rw [if_neg hab, if_pos hba] at h1
        exact absurd h1 (by simp)
      · rw [if_pos (by omega)]
    · by_cases hba : b.toNat < a.toNat
      · rw [if_neg hab, if_pos hba] at h1
        exact absurd h1 (by simp)
      · by_cases hcb : c.toNat < b.toNat
        · rw [if_neg hbc, if_pos hcb] at h2
          exact absurd h2 (by simp)
        · rw [if_neg hab, if_neg hba] at h1
          rw [if_neg hbc, if_neg hcb] at h2
          rw [if_neg (by omega), if_neg (by omega)]
          exact strLt_trans s t u h1 h2

theorem bytesLt_asymm : ∀ a b : List Nat, bytesLt a b = true → bytesLt b a = false
  | a, [] => by intro h; simp [bytesLt] at h
  | [], b :: t => by intro _; rfl
  | a :: s, b :: t => by
    intro h
    simp only [bytesLt] at h ⊢
    by_cases hab : a < b
    · rw [if_neg (by omega), if_pos hab]
    · by_cases hba : b < a
      · rw [if_neg hab, if_pos hba] at h
        exact absurd h (by simp)
      · rw [if_neg hab, if_neg hba] at h
        rw [if_neg hba, if_neg hab]
        exact bytesLt_asymm s t h

theorem bytesLt_trans : ∀ a b c : List Nat, bytesLt a b = true → bytesLt b c = true →
    bytesLt a c = true
  | a, b, [] => by intro _ h2; simp [bytesLt] at h2
  | a, [], c :: u => by intro h1 _; simp [bytesLt] at h1
  | [], b :: t, c :: u => by intro _ _; rfl
  | a :: s, b :: t, c :: u => by
    intro h1 h2
    simp only [bytesLt] at h1 h2 ⊢
    by_cases hab : a < b <;> by_cases hbc : b < c
    · rw [if_pos (by omega)]
    · by_cases hcb : c < b
      · rw [if_neg hbc, if_pos hcb] at h2
        exact absurd h2 (by simp)
      · rw [if_pos (by omega)]
    · by_cases hba : b < a
      · rw [if_neg hab, if_pos hba] at h1
        exact absurd h1 (by simp)
      · rw [if_pos (by omega)]
    · by_cases hba : b < a
      · rw [if_neg hab, if_pos hba] at h1
        exact absurd h1 (by simp)
      · by_cases hcb : c < b
        · rw [if_neg hbc, if_pos hcb] at h2
          exact absurd h2 (by simp)
        · rw [if_neg hab, if_neg hba] at h1
          rw [if_neg hbc, if_neg hcb] at h2
          rw [if_neg (by omega), if_neg (by omega)]
          exact bytesLt_trans s t u h1 h2

/-! ## `interp` is the identity on well-formed (sorted-key) values -/

theorem BDict.appendNil : ∀ dd : BDict, dd.append .nil = dd
  | .nil => rfl
  | .cons k v t => by rw [BDict.append, BDict.appendNil t]

theorem BDict.append_assoc : ∀ a b c : BDict, (a.append b).append c = a.append (b.append c)
  | .nil, _, _ => rfl
  | .cons k v t, b, c => by
    rw [BDict.append, BDict.append, BDict.append_assoc t b c, BDict.append]

theorem BDict.keys_append : ∀ a b : BDict, (a.append b).keys = a.keys ++ b.keys
  | .nil, _ => rfl
  | .cons k v t, b => by
    rw [BDict.append, BDict.keys, BDict.keys_append t b, BDict.keys, List.cons_append]

theorem mapInsert_gt : ∀ (acc : BDict) (k : List Char) (v : BValue),
    (∀ ka ∈ acc.keys, strLt ka k = true) →
    acc.mapInsert k v = acc.append (.cons k v .nil)
  | .nil, k, v, _ => rfl
  | .cons k0 v0 t, k, v, h => by
    have hk0 : strLt k0 k = true := h k0 (by simp [BDict.keys])
    have hkk0 : ¬ (strLt k k0 = true) := by
      rw [strLt_asymm k0 k hk0]
      simp
    rw [BDict.mapInsert, if_neg hkk0, if_pos hk0,
      mapInsert_gt t k v (fun ka hka => h ka (by simp [BDict.keys, hka])), BDict.append]

theorem keysSortedD_head : ∀ (t : BDict) (k : List Char) (v : BValue),
    keysSortedD (.cons k v t) = true →
    keysSortedD t = true ∧ ∀ kb ∈ t.keys, strLt k kb = true
  | .nil, k, v => by
    intro _
    exact ⟨rfl, by simp [BDict.keys]⟩
  | .cons k1 v1 t1, k, v => by
    intro h
    have h2 : strLt k k1 = true ∧ keysSortedD (.cons k1 v1 t1) = true := by
      simpa [keysSortedD] using h
    have ih1 := keysSortedD_head t1 k1 v1 h2.2
    refine ⟨h2.2, ?_⟩
    intro kb hkb
    rcases (by simpa [BDict.keys] using hkb : kb = k1 ∨ kb ∈ t1.keys) with hx | hx
    · subst hx
      exact h2.1
    · exact strLt_trans k k1 kb h2.1 (ih1.2 kb hx)

theorem wf_docOK : ∀ f : Nat,
    (∀ v : BValue, cost v ≤ f → wf v = true → docOK v = true) ∧
    (∀ l : BList, costL l ≤ f → wfL l = true → docOKL l = true) ∧
    (∀ dd : BDict, costD dd ≤ f → wfD dd = true → docOKD dd = true) := by
  intro f
  induction f with
  | zero =>
    refine ⟨fun v hv _ => ?_, fun l hl _ => ?_, fun dd hd _ => ?_⟩
    · have := cost_pos.1 v; omega
    · have := cost_pos.2.1 l; omega
    · have := cost_pos.2.2 dd; omega
  | succ f ih =>
    obtain ⟨ihV, ihL, ihD⟩ := ih
    refine ⟨fun v hc hw => ?_, fun l hc hw => ?_, fun dd hc hw => ?_⟩
    · cases v with
      | int n => simpa [docOK] using (by simpa [wf] using hw)
      | str s => simpa [docOK] using (by simpa [wf] using hw)
      | list xs =>
        have : wfL xs = true := by simpa [wf] using hw
        have hc2 : costL xs ≤ f := by simp only [cost] at hc; omega
        simpa [docOK] using ihL xs hc2 this
      | dict ps =>
        have : wfD ps = true := by
          have := (by simpa [wf] using hw : keysSortedD ps = true ∧ wfD ps = true)
          exact this.2
        have hc2 : costD ps ≤ f := by simp only [cost] at hc; omega
        simpa [docOK] using ihD ps hc2 this
    · cases l with
      | nil => rfl
      | cons x xs =>
        have hw2 : wf x = true ∧ wfL xs = true := by simpa [wfL] using hw
        have hcx : cost x ≤ f := by
          simp only [costL] at hc
          have := Nat.le_max_left (cost x) (costL xs)
          omega
        have hcxs : costL xs ≤ f := by
          simp only [costL] at hc
          have := Nat.le_max_right (cost x) (costL xs)
          omega
        simp [docOKL, ihV x hcx hw2.1, ihL xs hcxs hw2.2]
    · cases dd with
      | nil => rfl
      | cons k v t =>
        have hw2 : ((k.length : Int) ≤ int64Max ∧ wf v = true) ∧ wfD t = true := by
          simpa [wfD] using hw
        have hcv : cost v ≤ f := by
          simp only [costD] at hc
          have := Nat.le_max_left (cost v) (costD t)
          omega
        have hct : costD t ≤ f := by
          simp only [costD] at hc
          have := Nat.le_max_right (cost v) (costD t)
          omega
        simp [docOKD, hw2.1.1, ihV v hcv hw2.1.2, ihD t hct hw2.2]

theorem interp_eq : ∀ f : Nat,
    (∀ v : BValue, cost v ≤ f → wf v = true → interp v = v) ∧
    (∀ l : BList, costL l ≤ f → wfL l = true → interpL l = l) ∧
    (∀ dd : BDict, costD dd ≤ f → wfD dd = true → keysSortedD dd = true →
      ∀ acc : BDict, (∀ ka ∈ acc.keys, ∀ kb ∈ dd.keys, strLt ka kb = true) →
      interpD acc dd = acc.append dd) := by
  intro f
  induction f with
  | zero =>
    refine ⟨fun v hv _ => ?_, fun l hl _ => ?_, fun dd hd _ => ?_⟩
    · have := cost_pos.1 v; omega
    · have := cost_pos.2.1 l; omega
    · have := cost_pos.2.2 dd; omega
  | succ f ih =>
    obtain ⟨ihV, ihL, ihD⟩ := ih
    refine ⟨fun v hc hw => ?_, fun l hc hw => ?_, fun dd hc hw hs acc hacc => ?_⟩
    · cases v with
      | int n => rfl
      | str s => rfl
      | list xs =>
        have hw2 : wfL xs = true := by simpa [wf] using hw
        have hc2 : costL xs ≤ f := by simp only [cost] at hc; omega
        rw [show interp (.list xs) = .list (interpL xs) from rfl, ihL xs hc2 hw2]
      | dict ps =>
        have hw2 : keysSortedD ps = true ∧ wfD ps = true := by simpa [wf] using hw
        have hc2 : costD ps ≤ f := by simp only [cost] at hc; omega
        rw [show interp (.dict ps) = .dict (interpD .nil ps) from rfl,
          ihD ps hc2 hw2.2 hw2.1 .nil (by simp [BDict.keys])]
        rfl
    · cases l with
      | nil => rfl
      | cons x xs =>
        have hw2 : wf x = true ∧ wfL xs = true := by simpa [wfL] using hw
        have hcx : cost x ≤ f := by
          simp only [costL] at hc
          have := Nat.le_max_left (cost x) (costL xs)
          omega
        have hcxs : costL xs ≤ f := by
          simp only [costL] at hc
          have := Nat.le_max_right (cost x) (costL xs)
          omega
        rw [show interpL (.cons x xs) = .cons (interp x) (interpL xs) from rfl,
          ihV x hcx hw2.1, ihL xs hcxs hw2.2]
    · cases dd with
      | nil => rw [show interpD acc .nil = acc from rfl, BDict.appendNil]
      | cons k v t =>
        have hw2 : ((k.length : Int) ≤ int64Max ∧ wf v = true) ∧ wfD t = true := by
          simpa [wfD] using hw
        have hcv : cost v ≤ f := by
          simp only [costD] at hc
          have := Nat.le_max_left (cost v) (costD t)
          omega
        have hct : costD t ≤ f := by
          simp only [costD] at hc
          have := Nat.le_max_right (cost v) (costD t)
          omega
        have hhead := keysSortedD_head t k v hs
        have hins : acc.mapInsert k (interp v) = acc.append (.cons k (interp v) .nil) :=
          mapInsert_gt acc k (interp v)
            (fun ka hka => hacc ka hka k (by simp [BDict.keys]))
        have hrec := ihD t hct hw2.2 hhead.1 (acc.append (.cons k (interp v) .nil))
          (by intro ka hka kb hkb
              rcases (by simpa [BDict.keys_append, BDict.keys] using hka :
                ka ∈ acc.keys ∨ ka = k) with hx | hx
              · exact hacc ka hx kb (by simp [BDict.keys, hkb])
              · subst hx
                exact hhead.2 kb hkb)
        rw [show interpD acc (.cons k v t) = interpD (acc.mapInsert k (interp v)) t from rfl,
          hins, hrec, BDict.append_assoc, ihV v hcv hw2.1.2]
        rfl

/-! ## Parse wrappers on encoded documents -/

theorem parse_encode_doc (d : BValue) (hok : docOK d = true)
    (hlen : (BencodeEncoder.encode d).length < 18446744073709551616) :
    BencodeParser.parse (BencodeEncoder.encode d) = .ok (interp d) := by
  have hcost : cost d ≤ (BencodeEncoder.encode d).length + 1 :=
    le_trans ((cost_le_enc (cost d)).1 d le_rfl) (by omega)
  have hmain := (parse_encode_main ((BencodeEncoder.encode d).length + 1)).1 d hok hcost
    [] [] (by simpa using hlen)
  simp only [List.nil_append, List.append_nil, List.length_nil] at hmain
  unfold BencodeParser.parse
  simp only [hmain]

theorem parse_encode_wf (v : BValue) (hwf : wf v = true)
    (hlen : (BencodeEncoder.encode v).length < 18446744073709551616) :
    BencodeParser.parse (BencodeEncoder.encode v) = .ok v := by
  have hok := (wf_docOK (cost v)).1 v le_rfl hwf
  rw [parse_encode_doc v hok hlen, (interp_eq (cost v)).1 v le_rfl hwf]

/-! ## Lookup in the parsed dictionary: last duplicate wins -/

theorem atKey_mapInsert : ∀ (acc : BDict) (k : List Char) (v : BValue) (key : List Char),
    (acc.mapInsert k v).atKey key = if k = key then some v else acc.atKey key
  | .nil, k, v, key => rfl
  | .cons k0 v0 t, k, v, key => by
    by_cases h1 : strLt k k0 = true
    · rw [BDict.mapInsert, if_pos h1, BDict.atKey]
    · by_cases h2 : strLt k0 k = true
      · rw [BDict.mapInsert, if_neg h1, if_pos h2]
        have hL : (BDict.cons k0 v0 (t.mapInsert k v)).atKey key
            = if k0 = key then some v0 else (t.mapInsert k v).atKey key := rfl
        have hR : (BDict.cons k0 v0 t).atKey key
            = if k0 = key then some v0 else t.atKey key := rfl
        rw [hL, hR, atKey_mapInsert t k v key]
        by_cases hk : k = key <;> by_cases hk0 : k0 = key
        · exfalso
          subst hk
          subst hk0
          rw [strLt_irrefl] at h2
          exact absurd h2 (by simp)
        · simp [hk, hk0]
        · simp [hk, hk0]
        · simp [hk, hk0]
      · have heq : k0 = k := strLt_conn k0 k
          (by revert h2; cases strLt k0 k <;> simp)
          (by revert h1; cases strLt k k0 <;> simp)
        subst heq
        rw [BDict.mapInsert, if_neg h1, if_neg h2, BDict.atKey, BDict.atKey]
        by_cases hk : k0 = key
        · rw [if_pos hk, if_pos hk]
        · rw [if_neg hk, if_neg hk, if_neg hk]

theorem atKey_interpD : ∀ (dd acc : BDict) (key : List Char),
    (interpD acc dd).atKey key
      = match dd.lastVal key with
        | some w => some (interp w)
        | none => acc.atKey key
  | .nil, acc, key => rfl
  | .cons k v t, acc, key => by
    rw [show interpD acc (.cons k v t) = interpD (acc.mapInsert k (interp v)) t from rfl,
      atKey_interpD t (acc.mapInsert k (interp v)) key,
      show BDict.lastVal (.cons k v t) key
        = (match t.lastVal key with
           | some w => some w
           | none => if k = key then some v else none) from rfl]
    cases t.lastVal key with
    | some w => rfl
    | none =>
      rw [atKey_mapInsert acc k (interp v) key]
      by_cases hk : k = key
      · rw [if_pos hk, if_pos hk]
      · rw [if_neg hk, if_neg hk]

theorem lastVal_isSome_of_keyCount : ∀ (dd : BDict) (key : List Char),
    1 ≤ dd.keyCount key → (dd.lastVal key).isSome = true
  | .nil, key => by intro h; simp [BDict.keyCount] at h
  | .cons k v t, key => by
    intro h
    rw [BDict.lastVal]
    cases hlv : t.lastVal key with
    | some w => rfl
    | none =>
      by_cases hk : k = key
      · rw [if_pos hk]
        rfl
      · exfalso
        have ht : t.keyCount key = 0 := by
          by_contra hc
          have := lastVal_isSome_of_keyCount t key (by omega)
          rw [hlv] at this
          simp at this
        rw [BDict.keyCount, if_neg hk, ht] at h
        omega

/-! ## Routing-table helper lemmas -/

theorem mem_of_mem_set {α : Type} : ∀ (l : List α) (i : Nat) (x b : α),
    b ∈ l.set i x → b ∈ l ∨ b = x
  | [], _, _, _ => by intro h; simp at h
  | h :: t, 0, x, b => by
    intro hm
    rcases List.mem_cons.mp hm with hx | hx
    · exact Or.inr hx
    · exact Or.inl (List.mem_cons.mpr (Or.inr hx))
  | h :: t, i + 1, x, b => by
    intro hm
    rcases List.mem_cons.mp hm with hx | hx
    · exact Or.inl (List.mem_cons.mpr (Or.inl hx))
    · rcases mem_of_mem_set t i x b hx with hy | hy
      · exact Or.inl (List.mem_cons.mpr (Or.inr hy))
      · exact Or.inr hy

theorem getD_mem {α : Type} : ∀ (l : List α) (i : Nat) (d : α),
    i < l.length → l.getD i d ∈ l
  | [], i, d => by intro h; simp at h
  | h :: t, 0, d => by intro _; simp
  | h :: t, i + 1, d => by
    intro hlt
    have := getD_mem t i d (by simpa using hlt)
    simp only [List.getD_cons_succ]
    exact List.mem_cons.mpr (Or.inr this)

theorem getD_set_eq {α : Type} : ∀ (l : List α) (i : Nat) (x d : α),
    i < l.length → (l.set i x).getD i d = x
  | [], i, x, d => by intro h; simp at h
  | h :: t, 0, x, d => by intro _; rfl
  | h :: t, i + 1, x, d => by
    intro hlt
    exact getD_set_eq t i x d (by simpa using hlt)

theorem getD_set_ne {α : Type} : ∀ (l : List α) (i j : Nat) (x d : α),
    i ≠ j → (l.set i x).getD j d = l.getD j d
  | [], _, _, _, _ => by intro _; simp
  | h :: t, 0, 0, x, d => by intro hne; exact absurd rfl hne
  | h :: t, 0, j + 1, x, d => by intro _; rfl
  | h :: t, i + 1, 0, x, d => by intro _; rfl
  | h :: t, i + 1, j + 1, x, d => by
    intro hne
    exact getD_set_ne t i j x d (by omega)

/-- Characterization of the bucket-index scan: starting from `i` with `rem`
iterations allowed, it stops at the first position whose bit is clear, or at
`i + rem`. -/
theorem bucketIndexGo_spec (d : NodeID) : ∀ (rem i : Nat),
    i ≤ bucketIndexGo d i rem ∧ bucketIndexGo d i rem ≤ i + rem ∧
    (∀ j, i ≤ j → j < bucketIndexGo d i rem → distanceBit d j = true) ∧
    (bucketIndexGo d i rem < i + rem → distanceBit d (bucketIndexGo d i rem) = false) := by
  intro rem
  induction rem with
  | zero =>
    intro i
    have hg : bucketIndexGo d i 0 = i := rfl
    rw [hg]
    exact ⟨le_rfl, by omega, fun j h1 h2 => by omega, fun h => by omega⟩
  | succ rem ih =>
    intro i
    by_cases hbit : distanceBit d i = true
    · have hgo : bucketIndexGo d i (rem + 1) = bucketIndexGo d (i + 1) rem := by
        rw [bucketIndexGo, if_pos hbit]
      obtain ⟨ih1, ih2, ih3, ih4⟩ := ih (i + 1)
      refine ⟨by omega, by omega, fun j h1 h2 => ?_, fun h => ?_⟩
      · rw [hgo] at h2
        by_cases hj : j = i
        · subst hj; exact hbit
        · exact ih3 j (by omega) h2
      · rw [hgo] at h ⊢
        exact ih4 (by omega)
    · have hgo : bucketIndexGo d i (rem + 1) = i := by
        rw [bucketIndexGo, if_neg hbit]
      refine ⟨by omega, by omega, fun j h1 h2 => by omega, fun _ => ?_⟩
      rw [hgo]
      cases h : distanceBit d i
      · rfl
      · exact absurd h hbit

theorem bucketIndex_le (d : NodeID) (n : Nat) : bucketIndex d n ≤ n := by
  have := (bucketIndexGo_spec d n 0).2.1
  simpa [bucketIndex] using this

/-- Every branch of `add_to_routing_table` keeps every bucket at size ≤ `K`. -/
theorem add_to_routing_table_bucket_le (my_node_id : NodeID) (rt : RoutingTable)
    (node : Node) (pingOk : Bool) (h : ∀ b ∈ rt, b.length ≤ K) :
    ∀ b ∈ add_to_routing_table my_node_id rt node pingOk, b.length ≤ K := by
  intro b hmem
  simp only [add_to_routing_table] at hmem
  set i := bucketIndex (xor_distance my_node_id node.id) rt.length with hi
  set rt1 := if rt.length ≤ i then rt ++ [[]] else rt with hrt1
  have h1 : ∀ b ∈ rt1, b.length ≤ K := by
    intro b hb
    rw [hrt1] at hb
    split at hb
    · rcases List.mem_append.mp hb with hx | hx
      · exact h b hx
      · simp at hx
        subst hx
        simp [K]
    · exact h b hb
  set bucket := rt1.getD i [] with hbucket
  have hb : bucket.length ≤ K := by
    by_cases hlt : i < rt1.length
    · exact h1 bucket (getD_mem rt1 i [] hlt)
    · rw [hbucket, List.getD_eq_default _ _ (by omega)]
      simp [K]
  clear_value bucket
  split at hmem
  · rcases mem_of_mem_set _ _ _ _ hmem with hx | hx
    · exact h1 b hx
    · subst hx
      rename_i hin
      have hpos : 0 < bucket.length := List.length_pos_of_mem hin
      rw [List.length_append, List.length_erase_of_mem hin]
      simp only [List.length_singleton]
      omega
  · split at hmem
    · rcases mem_of_mem_set _ _ _ _ hmem with hx | hx
      · exact h1 b hx
      · subst hx
        rename_i hlen
        rw [List.length_append]
        simp only [List.length_singleton]
        omega
    · split at hmem
      · exact h1 b hmem
      · rename_i oldest rest
        simp only [List.length_cons] at hb
        split at hmem
        · rcases mem_of_mem_set _ _ _ _ hmem with hx | hx
          · exact h1 b hx
          · subst hx
            rw [List.length_append]
            simp only [List.length_singleton]
            omega
        · rcases mem_of_mem_set _ _ _ _ hmem with hx | hx
          · exact h1 b hx
          · subst hx
            simp only [List.length_cons]
            omega

theorem foldl_inserts_bucket_le (my : NodeID) :
    ∀ (ops : List (Node × Bool)) (rt : RoutingTable), (∀ b ∈ rt, b.length ≤ K) →
      ∀ b ∈ ops.foldl (fun rt op => add_to_routing_table my rt op.1 op.2) rt,
        b.length ≤ K
  | [], rt, h => by simpa using h
  | op :: ops, rt, h => by
    intro b hb
    rw [List.foldl_cons] at hb
    exact foldl_inserts_bucket_le my ops _
      (add_to_routing_table_bucket_le my rt op.1 op.2 h) b hb

/-! ## Sorting lemmas for `find_closest_nodes` -/

theorem sortInsert_perm (lt : Node → Node → Bool) (x : Node) :
    ∀ l : List Node, (sortInsert lt x l).Perm (x :: l)
  | [] => List.Perm.refl _
  | y :: t => by
    unfold sortInsert
    split
    · exact List.Perm.refl _
    · exact ((sortInsert_perm lt x t).cons y).trans (List.Perm.swap x y t)

theorem sortNodes_perm (lt : Node → Node → Bool) :
    ∀ l : List Node, (sortNodes lt l).Perm l
  | [] => List.Perm.refl _
  | x :: t =>
    (sortInsert_perm lt x (sortNodes lt t)).trans ((sortNodes_perm lt t).cons x)

theorem sortInsert_pairwise (lt : Node → Node → Bool)
    (hasym : ∀ a b, lt a b = true → lt b a = false)
    (htrans : ∀ a b c, lt a b = true → lt b c = true → lt a c = true) :
    ∀ (l : List Node) (x : Node), l.Pairwise (fun a b => lt b a = false) →
      (sortInsert lt x l).Pairwise (fun a b => lt b a = false)
  | [], x, _ => List.pairwise_singleton _ x
  | y :: t, x, hp => by
    rw [List.pairwise_cons] at hp
    obtain ⟨hyt, hpt⟩ := hp
    unfold sortInsert
    split
    · rename_i hxy
      refine List.pairwise_cons.mpr ⟨?_, List.pairwise_cons.mpr ⟨hyt, hpt⟩⟩
      intro z hz
      rcases List.mem_cons.mp hz with hz | hz
      · subst hz; exact hasym x z hxy
      · cases h : lt z x
        · rfl
        · have := htrans z x y h hxy
          rw [hyt z hz] at this
          cases this
    · rename_i hxy
      have hxy' : lt x y = false := by
        cases h : lt x y
        · rfl
        · exact absurd h hxy
      refine List.pairwise_cons.mpr ⟨?_, sortInsert_pairwise lt hasym htrans t x hpt⟩
      intro z hz
      rcases (sortInsert_perm lt x t).mem_iff.mp hz with hz2
      rcases List.mem_cons.mp hz2 with hz3 | hz3
      · subst hz3; exact hxy'
      · exact hyt z hz3

theorem sortNodes_pairwise (lt : Node → Node → Bool)
    (hasym : ∀ a b, lt a b = true → lt b a = false)
    (htrans : ∀ a b c, lt a b = true → lt b c = true → lt a c = true) :
    ∀ l : List Node, (sortNodes lt l).Pairwise (fun a b => lt b a = false)
  | [] => List.Pairwise.nil
  | x :: t =>
    sortInsert_pairwise lt hasym htrans (sortNodes lt t) x
      (sortNodes_pairwise lt hasym htrans t)

theorem nodeDistLt_asymm (target : NodeID) (a b : Node)
    (h : nodeDistLt target a b = true) : nodeDistLt target b a = false :=
  bytesLt_asymm _ _ h

theorem nodeDistLt_trans (target : NodeID) (a b c : Node)
    (h1 : nodeDistLt target a b = true) (h2 : nodeDistLt target b c = true) :
    nodeDistLt target a c = true :=
  bytesLt_trans _ _ _ h1 h2

/-- Full characterization of `find_closest_nodes`: the result has size
`min k total`, draws only from the table, is sorted ascending by XOR
distance to the target, and has no duplicates when the table has none. -/
theorem find_closest_nodes_spec (rt : RoutingTable) (target : NodeID) (k : Nat) :
    (find_closest_nodes rt target k).length = min k rt.flatten.length ∧
    (∀ x ∈ find_closest_nodes rt target k, x ∈ rt.flatten) ∧
    (find_closest_nodes rt target k).Pairwise
      (fun a b => nodeDistLt target b a = false) ∧
    (rt.flatten.Nodup → (find_closest_nodes rt target k).Nodup) := by
  have hperm := sortNodes_perm (nodeDistLt target) rt.flatten
  have hlen := hperm.length_eq
  have hsorted := sortNodes_pairwise (nodeDistLt target)
    (nodeDistLt_asymm target) (fun a b c => nodeDistLt_trans target a b c) rt.flatten
  simp only [find_closest_nodes]
  split
  · rename_i hk
    refine ⟨?_, ?_, ?_, ?_⟩
    · rw [List.length_take, hlen]
    · intro x hx
      exact hperm.mem_iff.mp (List.mem_of_mem_take hx)
    · exact hsorted.sublist (List.take_sublist _ _)
    · intro hnd
      exact ((hperm.nodup_iff.mpr hnd).sublist (List.take_sublist _ _))
  · rename_i hk
    refine ⟨?_, ?_, hsorted, fun hnd => hperm.nodup_iff.mpr hnd⟩
    · rw [hlen]
      omega
    · intro x hx
      exact hperm.mem_iff.mp hx

/-! ## Re-inserting a node into the bucket it indexes to -/

/-- When the inserted node is already in the bucket the code selects for it,
the insertion moves it to the tail of that bucket, leaves every other bucket
untouched, and keeps the bucket count. -/
theorem add_present_moves_to_tail (my : NodeID) (rt : RoutingTable) (node : Node)
    (pingOk : Bool)
    (h : node ∈ rt.getD (bucketIndex (xor_distance my node.id) rt.length) []) :
    add_to_routing_table my rt node pingOk
      = rt.set (bucketIndex (xor_distance my node.id) rt.length)
          ((rt.getD (bucketIndex (xor_distance my node.id) rt.length) []).erase node
            ++ [node]) := by
  have hilt : bucketIndex (xor_distance my node.id) rt.length < rt.length := by
    by_contra hge
    rw [List.getD_eq_default _ _ (by omega)] at h
    simp at h
  have hc : ¬ (rt.length ≤ bucketIndex (xor_distance my node.id) rt.length) := by
    omega
  simp only [add_to_routing_table]
  rw [if_neg hc, if_pos h]

theorem add_present_other_buckets (my : NodeID) (rt : RoutingTable) (node : Node)
    (pingOk : Bool)
    (h : node ∈ rt.getD (bucketIndex (xor_distance my node.id) rt.length) []) :
    ∀ j, j ≠ bucketIndex (xor_distance my node.id) rt.length →
      (add_to_routing_table my rt node pingOk).getD j [] = rt.getD j [] := by
  intro j hj
  rw [add_present_moves_to_tail my rt node pingOk h,
    getD_set_ne _ _ _ _ _ (fun he => hj he.symm)]

theorem add_present_length (my : NodeID) (rt : RoutingTable) (node : Node)
    (pingOk : Bool)
    (h : node ∈ rt.getD (bucketIndex (xor_distance my node.id) rt.length) []) :
    (add_to_routing_table my rt node pingOk).length = rt.length := by
  rw [add_present_moves_to_tail my rt node pingOk h, List.length_set]

/-! ## Peer-store lemmas -/

theorem storeLookup_storeAppend_self :
    ∀ (s : List (List Char × List Peer)) (k : List Char) (p : Peer),
      storeLookup (storeAppend s k p) k = some ((storeLookup s k).getD [] ++ [p])
  | [], k, p => by simp [storeAppend, storeLookup]
  | (k0, l) :: t, k, p => by
    by_cases hk : k0 = k
    · simp [storeAppend, storeLookup, hk]
    · simp [storeAppend, storeLookup, hk, storeLookup_storeAppend_self t k p]

theorem encode_peers_append (a b : List Peer) :
    encode_peers (a ++ b) = encode_peers a ++ encode_peers b := by
  simp [encode_peers]

theorem encode_peers_singleton (p : Peer) :
    encode_peers [p] = compactPeer p := by
  simp [encode_peers]

theorem compactPeer_length (p : Peer) (hip : p.ip.length = 4) :
    (compactPeer p).length = 6 := by
  simp [compactPeer, hip]

/-- Reduction of `handle_announce_peer` on a canonical announce message with
a 20-byte infohash. -/
theorem handle_announce_peer_eq (st : DHTBootstrap) (tA senderId H : List Char)
    (sender : Peer) (hH : H.length = NODE_ID_SIZE) :
    st.handle_announce_peer (announceMsg tA senderId H) sender
      = ({ st with peer_store := storeAppend st.peer_store H sender },
         some (idReply tA st.my_node_id)) := by
  have h1 : (((announceMsg tA senderId H).asDict.bind (fun d => d.atKey ("a".toList))).bind
      BValue.asDict).bind (fun a =>
        (a.atKey ("info_hash".toList)).bind BValue.asString) = some H := rfl
  have h2 : ((announceMsg tA senderId H).asDict.bind (fun d => d.atKey ("t".toList))).bind
      BValue.asString = some tA := rfl
  simp only [DHTBootstrap.handle_announce_peer, h1, h2, hH]
  simp

/-- Reduction of `handle_get_peers` on a canonical get_peers message whose
infohash is already in the peer store. -/
theorem handle_get_peers_hit (st : DHTBootstrap) (tG senderId H : List Char)
    (peers : List Peer) (hl : storeLookup st.peer_store H = some peers) :
    st.handle_get_peers (getPeersMsg tG senderId H)
      = some (valuesReply tG st.my_node_id peers) := by
  have h3 : ((getPeersMsg tG senderId H).asDict.bind (fun d => d.atKey ("t".toList))).bind
      BValue.asString = some tG := rfl
  have h4 : (((getPeersMsg tG senderId H).asDict.bind (fun d => d.atKey ("a".toList))).bind
      BValue.asDict).bind (fun a =>
        (a.atKey ("info_hash".toList)).bind BValue.asString) = some H := rfl
  simp only [DHTBootstrap.handle_get_peers, h3, h4, hl]

/-- The announce → get_peers pipeline: after an announce for `H`, a
get_peers for `H` replies with `values`, and the compact encoding of the
announced endpoint is a contiguous 6-byte substring of the values blob. -/
theorem announce_then_get_peers_pipeline (st : DHTBootstrap)
    (tA tG senderId H : List Char) (sender : Peer)
    (hH : H.length = NODE_ID_SIZE) (hip : sender.ip.length = 4) :
    (st.handle_announce_peer (announceMsg tA senderId H) sender).2
        = some (idReply tA st.my_node_id)
    ∧ ∃ peers : List Peer,
        (st.handle_announce_peer (announceMsg tA senderId H) sender).1.handle_get_peers
            (getPeersMsg tG senderId H)
          = some (valuesReply tG st.my_node_id peers)
        ∧ ∃ u w : List Nat,
            encode_peers peers = u ++ compactPeer sender ++ w
            ∧ (compactPeer sender).length = 6 := by
  rw [handle_announce_peer_eq st tA senderId H sender hH]
  refine ⟨rfl, (storeLookup st.peer_store H).getD [] ++ [sender], ?_, ?_⟩
  · exact handle_get_peers_hit _ tG senderId H _
      (storeLookup_storeAppend_self st.peer_store H sender)
  · refine ⟨encode_peers ((storeLookup st.peer_store H).getD []), [], ?_,
      compactPeer_length sender hip⟩
    rw [encode_peers_append, encode_peers_singleton, List.append_nil]

/-! ## Evaluating the dispatch of the short-infohash announce datagram -/

theorem badAnnounceDatagram_parse :
    BencodeParser.parse badAnnounceDatagram
      = .ok (.dict (.cons ("a".toList)
            (.dict (.cons ("info_hash".toList) (.str ("hello".toList)) .nil))
          (.cons ("q".toList) (.str ("announce_peer".toList))
            (.cons ("t".toList) (.str ("aa".toList))
              (.cons ("y".toList) (.str ("q".toList)) .nil))))) := by
  have henc : BencodeEncoder.encode (.dict (.cons ("a".toList)
        (.dict (.cons ("info_hash".toList) (.str ("hello".toList)) .nil))
      (.cons ("q".toList) (.str ("announce_peer".toList))
        (.cons ("t".toList) (.str ("aa".toList))
          (.cons ("y".toList) (.str ("q".toList)) .nil)))))
      = badAnnounceDatagram := rfl
  have hwf : wf (.dict (.cons ("a".toList)
        (.dict (.cons ("info_hash".toList) (.str ("hello".toList)) .nil))
      (.cons ("q".toList) (.str ("announce_peer".toList))
        (.cons ("t".toList) (.str ("aa".toList))
          (.cons ("y".toList) (.str ("q".toList)) .nil))))) = true := by decide
  rw [← henc]
  exact parse_encode_wf _ hwf (by rw [henc]; decide)

theorem runStep_badAnnounce :
    DHTBootstrap.runStep emptyEngine badAnnounceDatagram senderPeer
      = ({ emptyEngine with peer_store := [("hello".toList, [senderPeer])] }, none) := by
  simp only [DHTBootstrap.runStep, badAnnounceDatagram_parse]
  rfl

/-! ## The claims -/

/-- Claim C1: for every `BValue` whose dictionaries (at every nesting level)
have distinct, lexicographically sorted keys — and which fits the codec's
`int64`/`size_t` ranges, as every in-memory C++ value does — decoding the
byte string produced by encoding it yields the value back:
`decode(encode(v)) = v`. -/
theorem c1_decode_encode_roundtrip (v : BValue) (hwf : wf v = true)
    (hlen : (BencodeEncoder.encode v).length < 18446744073709551616) :
    BencodeParser.parse (BencodeEncoder.encode v) = .ok v :=
  parse_encode_wf v hwf hlen

theorem c1_roundtrip_witness :
    wf (.dict (.cons ("a".toList) (.int 1)
        (.cons ("b".toList) (.str ("x".toList)) .nil))) = true
    ∧ BencodeParser.parse (BencodeEncoder.encode (.dict (.cons ("a".toList) (.int 1)
        (.cons ("b".toList) (.str ("x".toList)) .nil))))
      = .ok (.dict (.cons ("a".toList) (.int 1)
        (.cons ("b".toList) (.str ("x".toList)) .nil))) :=
  ⟨by decide, c1_decode_encode_roundtrip _ (by decide) (by decide)⟩

/-- Claim C2: for every well-formed bencoded input `b` — a byte string that
is the encoding of some value with sorted, distinct dictionary keys —
decoding succeeds and re-encoding the decoded value reproduces `b` byte for
byte: `encode(decode(b)) = b`. -/
theorem c2_encode_decode_roundtrip (b : List Char) (v : BValue) (hwf : wf v = true)
    (henc : BencodeEncoder.encode v = b)
    (hlen : b.length < 18446744073709551616) :
    ∃ w : BValue, BencodeParser.parse b = .ok w ∧ BencodeEncoder.encode w = b := by
  subst henc
  exact ⟨v, parse_encode_wf v hwf hlen, rfl⟩

theorem c2_roundtrip_witness :
    wf (.dict (.cons ("a".toList) (.int 5) .nil)) = true
    ∧ BencodeEncoder.encode (.dict (.cons ("a".toList) (.int 5) .nil))
        = "d1:ai5ee".toList
    ∧ ∃ w : BValue, BencodeParser.parse ("d1:ai5ee".toList) = .ok w
        ∧ BencodeEncoder.encode w = "d1:ai5ee".toList :=
  ⟨by decide, by decide,
    c2_encode_decode_roundtrip ("d1:ai5ee".toList) (.dict (.cons ("a".toList) (.int 5) .nil))
      (by decide) (by decide) (by decide)⟩

/-- Claim C3 (amended): decode rejects the empty input, `iXe`, `2:a`,
`li1e`, `d1:ai1e`, `di1ei2ee`, integers overflowing `int64` in either
direction, a declared byte-string length exceeding the remaining input
(`5:abc`), and a top-level negative declared length (`-1:a`, rejected
because `-` is not a digit) — but it accepts `i01e` (as 1) and `i-0e`
(as 0), and a negative declared length inside a dictionary is not rejected
(`d-2:xye` decodes successfully). -/
theorem c3_reject_malformed_amended :
    BencodeParser.parse ("".toList) = .error ()
    ∧ BencodeParser.parse ("iXe".toList) = .error ()
    ∧ BencodeParser.parse ("2:a".toList) = .error ()
    ∧ BencodeParser.parse ("li1e".toList) = .error ()
    ∧ BencodeParser.parse ("d1:ai1e".toList) = .error ()
    ∧ BencodeParser.parse ("di1ei2ee".toList) = .error ()
    ∧ BencodeParser.parse ("i9223372036854775808e".toList) = .error ()
    ∧ BencodeParser.parse ("i-9223372036854775809e".toList) = .error ()
    ∧ BencodeParser.parse ("5:abc".toList) = .error ()
    ∧ BencodeParser.parse ("-1:a".toList) = .error ()
    ∧ BencodeParser.parse ("i01e".toList) = .ok (.int 1)
    ∧ BencodeParser.parse ("i-0e".toList) = .ok (.int 0)
    ∧ BencodeParser.parse ("d-2:xye".toList)
        = .ok (.dict (.cons ("xye".toList) (.str ("xy".toList)) .nil)) :=
  ⟨rfl, rfl, rfl, rfl, rfl, rfl, rfl, rfl, rfl, rfl, rfl, rfl, rfl⟩

/-- Counterexample to claim C3 as stated: `i01e` (leading zero) and `i-0e`
(negative zero) are both accepted by the decoder — `std::stoll` parses them
as 1 and 0 — and a negative declared string length inside a dictionary
(`d-2:xye`) is accepted rather than rejected. -/
theorem c3_accepted_deviants :
    BencodeParser.parse ("i01e".toList) = .ok (.int 1)
    ∧ BencodeParser.parse ("i-0e".toList) = .ok (.int 0)
    ∧ (∃ v : BValue, BencodeParser.parse ("d-2:xye".toList) = .ok v) :=
  ⟨rfl, rfl, ⟨.dict (.cons ("xye".toList) (.str ("xy".toList)) .nil), rfl⟩⟩

/-- Claim C4 (amended): the bucket index is the position of the first
*clear* bit of the XOR distance, scanning from bit 0 where bit `i` is bit
`i % 8` of byte `i / 8` — i.e. bytes in order but *least-significant bit
first within each byte* (`distance[i/8] & (1 << (i%8))`) — capped at the
current bucket count `n` (index `n` makes the caller append a new
bucket). -/
theorem c4_bucket_index_first_clear_bit (d : NodeID) (n : Nat) :
    bucketIndex d n ≤ n
    ∧ (∀ j, j < bucketIndex d n → distanceBit d j = true)
    ∧ (bucketIndex d n < n → distanceBit d (bucketIndex d n) = false) := by
  obtain ⟨h1, h2, h3, h4⟩ := bucketIndexGo_spec d n 0
  exact ⟨by simpa [bucketIndex] using h2,
    fun j hj => h3 j (Nat.zero_le j) (by simpa [bucketIndex] using hj),
    fun h => by simpa [bucketIndex] using h4 (by simpa [bucketIndex] using h)⟩

theorem c4_first_clear_bit_witness :
    distanceBit (xor_distance zeroId nodeX.id) 0 = true
    ∧ distanceBit (xor_distance zeroId nodeX.id)
        (bucketIndex (xor_distance zeroId nodeX.id) 8) = false :=
  ⟨(c4_bucket_index_first_clear_bit (xor_distance zeroId nodeX.id) 8).2.1 0 (by decide),
   (c4_bucket_index_first_clear_bit (xor_distance zeroId nodeX.id) 8).2.2 (by decide)⟩

/-- Counterexample to claim C4 as stated: for the distance `01 00 … 00`
(node `nodeB1` seen from `zeroId`), the code's LSB-first scan gives bucket
index 1, while the claimed most-significant-bit-first scan
(`specBucketIndexMsb`) gives 0. -/
theorem c4_msb_reading_differs :
    bucketIndex (xor_distance zeroId nodeB1.id) 1 = 1
    ∧ specBucketIndexMsb (xor_distance zeroId nodeB1.id) 1 = 0 :=
  ⟨rfl, rfl⟩

/-- Claim C5: for every local node ID and every finite sequence of
routing-table insertions (with arbitrary outcomes of the liveness ping
during eviction), every bucket has size at most `K = 8`; since the sequence
is arbitrary, the bound holds after each insertion. -/
theorem c5_bucket_size_bound (my : NodeID) (ops : List (Node × Bool)) :
    ∀ b ∈ runInserts my ops, b.length ≤ K := by
  intro b hb
  refine foldl_inserts_bucket_le my ops [[]] ?_ b hb
  intro x hx
  rw [List.mem_singleton] at hx
  subst hx
  exact Nat.zero_le K

theorem c5_bucket_size_bound_witness :
    [nodeX] ∈ runInserts zeroId [(nodeX, true)]
    ∧ [nodeX].length ≤ K :=
  ⟨by decide, c5_bucket_size_bound zeroId [(nodeX, true)] [nodeX] (by decide)⟩

/-- Claim C6 (amended): for every routing-table state, target and bound `k`,
`find_closest_nodes` returns `min k total` nodes drawn from the table,
sorted ascending by XOR distance to the target (equal distances — which for
20-byte IDs force equal IDs — may appear in any order, as `std::sort` is
unstable); the result is duplicate-free whenever the table itself is, but a
reachable table can hold duplicates, and then so does the result. -/
theorem c6_closest_nodes_amended (rt : RoutingTable) (target : NodeID) (k : Nat) :
    (find_closest_nodes rt target k).length = min k rt.flatten.length
    ∧ (∀ x ∈ find_closest_nodes rt target k, x ∈ rt.flatten)
    ∧ (find_closest_nodes rt target k).Pairwise
        (fun a b => nodeDistLt target b a = false)
    ∧ (rt.flatten.Nodup → (find_closest_nodes rt target k).Nodup) :=
  find_closest_nodes_spec rt target k

theorem c6_closest_nodes_witness :
    (find_closest_nodes [[nodeX], [nodeB1]] zeroId 8).Nodup :=
  (c6_closest_nodes_amended [[nodeX], [nodeB1]] zeroId 8).2.2.2 (by decide)

/-- Counterexample to claim C6 as stated: inserting the same node twice
(with the table growing in between) yields a reachable routing table whose
closest-node query returns that node twice — the result is not
duplicate-free. -/
theorem c6_duplicate_closest :
    find_closest_nodes (runInserts zeroId [(nodeX, true), (nodeX, true)]) zeroId K
      = [nodeX, nodeX]
    ∧ ¬ (find_closest_nodes (runInserts zeroId [(nodeX, true), (nodeX, true)])
          zeroId K).Nodup :=
  ⟨rfl, by decide⟩

/-- Claim C7: dispatching an inbound `announce_peer` for infohash `H`
(20 bytes) appends the sender endpoint to the peer store under `H` and
replies `{t, y:"r", r:{id}}`; a subsequent `get_peers` for the same `H`
replies with a `values` blob in which the announced endpoint's compact
6-byte encoding appears contiguously. -/
theorem c7_announce_then_get_peers (st : DHTBootstrap)
    (tA tG senderId H : List Char) (sender : Peer)
    (hH : H.length = NODE_ID_SIZE) (hip : sender.ip.length = 4) :
    (st.handle_announce_peer (announceMsg tA senderId H) sender).2
        = some (idReply tA st.my_node_id)
    ∧ ∃ peers : List Peer,
        (st.handle_announce_peer (announceMsg tA senderId H) sender).1.handle_get_peers
            (getPeersMsg tG senderId H)
          = some (valuesReply tG st.my_node_id peers)
        ∧ ∃ u w : List Nat,
            encode_peers peers = u ++ compactPeer sender ++ w
            ∧ (compactPeer sender).length = 6 :=
  announce_then_get_peers_pipeline st tA tG senderId H sender hH hip

theorem c7_announce_then_get_peers_witness :
    ("aaaaabbbbbcccccddddd".toList.length = NODE_ID_SIZE ∧ senderPeer.ip.length = 4)
    ∧ ((emptyEngine.handle_announce_peer
          (announceMsg ("t1".toList) ("s".toList) ("aaaaabbbbbcccccddddd".toList))
          senderPeer).2
        = some (idReply ("t1".toList) emptyEngine.my_node_id)
      ∧ ∃ peers : List Peer,
          (emptyEngine.handle_announce_peer
              (announceMsg ("t1".toList) ("s".toList) ("aaaaabbbbbcccccddddd".toList))
              senderPeer).1.handle_get_peers
              (getPeersMsg ("t2".toList) ("s".toList) ("aaaaabbbbbcccccddddd".toList))
            = some (valuesReply ("t2".toList) emptyEngine.my_node_id peers)
          ∧ ∃ u w : List Nat,
              encode_peers peers = u ++ compactPeer senderPeer ++ w
              ∧ (compactPeer senderPeer).length = 6) :=
  ⟨⟨by decide, by decide⟩,
    c7_announce_then_get_peers emptyEngine ("t1".toList) ("t2".toList) ("s".toList)
      ("aaaaabbbbbcccccddddd".toList) senderPeer (by decide) (by decide)⟩

/-- Claim C8 (amended): inserting a node that is already present — by full
componentwise equality — in the bucket the code computes for it moves that
entry to the tail of that bucket (`erase` then append), leaves every other
bucket unchanged, and keeps the bucket count; but when the table has grown
since an earlier insertion, the node's computed bucket can differ from the
bucket holding the old copy, and inserting the same node twice then leaves
two copies in the table. -/
theorem c8_reinsert_moves_to_tail (my : NodeID) (rt : RoutingTable) (node : Node)
    (pingOk : Bool)
    (h : node ∈ rt.getD (bucketIndex (xor_distance my node.id) rt.length) []) :
    add_to_routing_table my rt node pingOk
        = rt.set (bucketIndex (xor_distance my node.id) rt.length)
            ((rt.getD (bucketIndex (xor_distance my node.id) rt.length) []).erase node
              ++ [node])
    ∧ (add_to_routing_table my rt node pingOk).getD
          (bucketIndex (xor_distance my node.id) rt.length) []
        = (rt.getD (bucketIndex (xor_distance my node.id) rt.length) []).erase node
            ++ [node]
    ∧ (∀ j, j ≠ bucketIndex (xor_distance my node.id) rt.length →
        (add_to_routing_table my rt node pingOk).getD j [] = rt.getD j [])
    ∧ (add_to_routing_table my rt node pingOk).length = rt.length := by
  have hilt : bucketIndex (xor_distance my node.id) rt.length < rt.length := by
    by_contra hge
    rw [List.getD_eq_default _ _ (by omega)] at h
    simp at h
  refine ⟨add_present_moves_to_tail my rt node pingOk h, ?_,
    add_present_other_buckets my rt node pingOk h,
    add_present_length my rt node pingOk h⟩
  rw [add_present_moves_to_tail my rt node pingOk h, getD_set_eq _ _ _ _ hilt]

theorem c8_reinsert_witness :
    nodeX ∈ ([[], [], [nodeX]] : RoutingTable).getD
        (bucketIndex (xor_distance zeroId nodeX.id) 3) []
    ∧ add_to_routing_table zeroId [[], [], [nodeX]] nodeX true
        = ([[], [], [nodeX]] : RoutingTable).set
            (bucketIndex (xor_distance zeroId nodeX.id) 3)
            ((([[], [], [nodeX]] : RoutingTable).getD
                (bucketIndex (xor_distance zeroId nodeX.id) 3) []).erase nodeX
              ++ [nodeX]) :=
  ⟨by decide,
    (c8_reinsert_moves_to_tail zeroId [[], [], [nodeX]] nodeX true (by decide)).1⟩

/-- Counterexample to claim C8 as stated: starting from the constructor's
table, inserting `nodeX` twice leaves *two* copies of it (the second
insertion computes a larger bucket index because the table grew, and never
looks at the bucket holding the first copy). -/
theorem c8_double_insert_duplicates :
    runInserts zeroId [(nodeX, true), (nodeX, true)] = [[], [nodeX], [nodeX]]
    ∧ (runInserts zeroId [(nodeX, true), (nodeX, true)]).flatten.count nodeX = 2 :=
  ⟨rfl, rfl⟩

/-- Claim C9 (code bug): the 20-byte-key invariant of the peer store does
not survive a malformed `announce_peer`: dispatching a datagram whose
`info_hash` is the 5-byte string `"hello"` mutates the peer store *before*
the length check inside the logging call throws, leaving a 5-byte key
mapped in the store (and no reply is sent). -/
theorem c9_short_infohash_pollutes_store :
    (DHTBootstrap.runStep emptyEngine badAnnounceDatagram senderPeer).1.peer_store
        = [("hello".toList, [senderPeer])]
    ∧ ("hello".toList).length ≠ NODE_ID_SIZE
    ∧ (DHTBootstrap.runStep emptyEngine badAnnounceDatagram senderPeer).2 = none := by
  rw [runStep_badAnnounce]
  exact ⟨rfl, by decide, rfl⟩

/-- Claim C10: for every syntactically well-formed bencoded dictionary
document in which some key occurs more than once, decode succeeds, and the
resulting dictionary maps that key to (the parsed image of) the value of
its *last* occurrence in the input — earlier occurrences are discarded by
`result[key] = value`. -/
theorem c10_duplicate_keys_last_wins (dd : BDict) (k : List Char)
    (hok : docOK (.dict dd) = true)
    (hcnt : 2 ≤ dd.keyCount k)
    (hlen : (BencodeEncoder.encode (.dict dd)).length < 18446744073709551616) :
    ∃ d' : BDict,
      BencodeParser.parse (BencodeEncoder.encode (.dict dd)) = .ok (.dict d')
      ∧ d'.atKey k = Option.map interp (dd.lastVal k)
      ∧ (d'.atKey k).isSome = true := by
  refine ⟨interpD .nil dd, ?_, ?_, ?_⟩
  · have h := parse_encode_doc (.dict dd) hok hlen
    rw [h]
    rfl
  · rw [atKey_interpD dd .nil k]
    cases dd.lastVal k with
    | some w => rfl
    | none => rfl
  · rw [atKey_interpD dd .nil k]
    cases hlv : dd.lastVal k with
    | some w => rfl
    | none =>
      have := lastVal_isSome_of_keyCount dd k (by omega)
      rw [hlv] at this
      cases this

theorem c10_last_wins_witness :
    docOK (.dict (.cons ("a".toList) (.int 1)
        (.cons ("a".toList) (.int 2) .nil))) = true
    ∧ 2 ≤ (BDict.cons ("a".toList) (.int 1)
        (.cons ("a".toList) (.int 2) .nil)).keyCount ("a".toList)
    ∧ ∃ d' : BDict,
        BencodeParser.parse (BencodeEncoder.encode (.dict (.cons ("a".toList) (.int 1)
            (.cons ("a".toList) (.int 2) .nil)))) = .ok (.dict d')
        ∧ d'.atKey ("a".toList)
            = Option.map interp ((BDict.cons ("a".toList) (.int 1)
                (.cons ("a".toList) (.int 2) .nil)).lastVal ("a".toList))
        ∧ (d'.atKey ("a".toList)).isSome = true :=
  ⟨by decide, by decide,
    c10_duplicate_keys_last_wins
      (.cons ("a".toList) (.int 1) (.cons ("a".toList) (.int 2) .nil))
      ("a".toList) (by decide) (by decide) (by decide)⟩
